import Mathlib

/-!
# Verification of `clustering/administration/reactor_driver.cc`

Shallow embedding of the blueprint-construction algorithm and the reactor
lifecycle registry from `src/clustering/administration/reactor_driver.cc`,
together with theorems settling the specification claims about them.

Naming follows the source: `construct_blueprint`, `blueprint_id_translator_t`
(its state is `TransState` here), `op_closure_t::apply`, `on_change`,
`is_acceptable_ack_set`, `get_write_durability`, `~watchable_and_reactor_t`,
`delete_reactor_data`.
-/

namespace ReactorDriver

/-- Durable server identity (`server_id_t`). -/
abbrev ServerId := Nat

/-- Transient peer identity (`peer_id_t`).  A peer id is a UUID in the
source; we separate the UUIDs that occur as values of the live
server-to-peer topology map (`live`) from the UUIDs freshly synthesized by
`generate_uuid()` during blueprint construction (`synth`), reflecting the
source's guarantee that a freshly generated UUID never collides with an
existing peer id. -/
inductive PeerId where
  | live : Nat → PeerId
  | synth : Nat → PeerId
deriving DecidableEq, Repr

/-- `true` exactly for synthesized placeholder peer ids. -/
def PeerId.isSynth : PeerId → Bool
  | .live _ => false
  | .synth _ => true

/-- Role of a peer for one shard region (`blueprint_role_t`). -/
inductive Role where
  | primary
  | secondary
  | nothing
deriving DecidableEq, Repr

/-- A hash region; the source builds one per shard index via
`hash_region_t<key_range_t>(info.shard_scheme.get_shard_range(i))`.  Only
equality of regions matters to the code under study, so a region is
abstract data. -/
abbrev Region := Nat

/-- First-match association-list lookup, the behaviour of `std::map::find`
on the list representation used throughout this embedding. -/
def firstVal {κ : Type} [DecidableEq κ] {β : Type} : List (κ × β) → κ → Option β
  | [], _ => none
  | e :: rest, k => if e.1 = k then some e.2 else firstVal rest k

/-- `std::map::count(k) != 0` on the list representation. -/
def hasKey {κ : Type} [DecidableEq κ] {β : Type} (l : List (κ × β)) (k : κ) : Bool :=
  (firstVal l k).isSome

/-- `blueprint_t::peers_roles`: a map from peer id to a map from region to
role, represented as association lists. -/
abbrev Blueprint := List (PeerId × List (Region × Role))

/-- `blueprint_t::add_peer`: register a peer with an empty role map.  The
source only calls it when `peers_roles.count(peer) == 0`. -/
def Blueprint.add_peer (bp : Blueprint) (p : PeerId) : Blueprint :=
  bp ++ [(p, [])]

/-- Record a role for a region in one peer's role map (the mapped-value
update performed by `blueprint_t::add_role`). -/
def setRole (roles : List (Region × Role)) (r : Region) (ro : Role) :
    List (Region × Role) :=
  if hasKey roles r then
    roles.map (fun e => if e.1 = r then (r, ro) else e)
  else
    roles ++ [(r, ro)]

/-- `blueprint_t::add_role`: record `ro` for region `r` in peer `p`'s role
map.  The source guarantees the peer is already registered; on an
unregistered peer this is a no-op. -/
def Blueprint.add_role (bp : Blueprint) (p : PeerId) (r : Region) (ro : Role) :
    Blueprint :=
  bp.map (fun e => if e.1 = p then (p, setRole e.2 r ro) else e)

/-- `peers_roles.count(p) != 0`. -/
def Blueprint.containsPeer (bp : Blueprint) (p : PeerId) : Bool :=
  hasKey bp p

/-- The role map of peer `p` in the blueprint. -/
def Blueprint.rolesOf (bp : Blueprint) (p : PeerId) : Option (List (Region × Role)) :=
  firstVal bp p

/-- The role recorded for `(p, r)`, if any. -/
def Blueprint.roleOf (bp : Blueprint) (p : PeerId) (r : Region) : Option Role :=
  (bp.rolesOf p).bind (fun roles => firstVal roles r)

/-! ## `construct_blueprint` -/

/-- `table_config_t::shard_t`: one shard's director and replica set (the
`std::set` of replicas is modelled as its iteration sequence). -/
structure Shard where
  director : ServerId
  replicas : List ServerId
deriving DecidableEq, Repr

/-- The shard partitioning scheme (`table_shard_scheme_t`): a shard count
and the pure map from shard index to the shard's hash region, i.e.
`hash_region_t<key_range_t>(shard_scheme.get_shard_range(i))`. -/
structure ShardScheme where
  num_shards : Nat
  rangeOf : Nat → Region

/-- A partitioning scheme partitions the key space into disjoint contiguous
ranges, so distinct shard indices have distinct regions. -/
def ShardScheme.Valid (sch : ShardScheme) : Prop :=
  ∀ i j, i < sch.num_shards → j < sch.num_shards →
    sch.rangeOf i = sch.rangeOf j → i = j

/-- `table_replication_info_t`: the replication config's shard entries plus
the partitioning scheme. -/
structure TableReplicationInfo where
  shards : List Shard
  scheme : ShardScheme

/-- The `rassert` at the top of `construct_blueprint`: the config has one
shard entry per shard of the partitioning scheme. -/
def TableReplicationInfo.ConfigInvariant (info : TableReplicationInfo) : Prop :=
  info.shards.length = info.scheme.num_shards

/-- State of `blueprint_id_translator_t` plus the `generate_uuid()` call
counter: `cache` is the translator's `server_id_to_peer_id_map` member
(initialised from the topology snapshot, extended with synthesized
entries), `ctr` indexes the next fresh UUID in the generator stream. -/
structure TransState where
  cache : List (ServerId × PeerId)
  ctr : Nat

/-- `blueprint_id_translator_t::server_id_to_peer_id`: look the server up
in the translator's map; on a miss, synthesize a fresh peer id
(`generate_uuid()`, the `ctr`-th element of the generator stream `g`),
remember it, and return it. -/
def TransState.server_id_to_peer_id (g : Nat → PeerId) (st : TransState)
    (s : ServerId) : PeerId × TransState :=
  match firstVal st.cache s with
  | some p => (p, st)
  | none => (g st.ctr, ⟨st.cache ++ [(s, g st.ctr)], st.ctr + 1⟩)

/-- Translator state and blueprint under construction. -/
structure BuildState where
  trans : TransState
  bp : Blueprint

/-- The recurring registration idiom of `construct_blueprint`:
`if (blueprint.peers_roles.count(peer) == 0) blueprint.add_peer(peer)`. -/
def registerPeer (bp : Blueprint) (p : PeerId) : Blueprint :=
  if ¬ bp.containsPeer p then bp.add_peer p else bp

/-- Body of the primaries loop of `construct_blueprint` for one indexed
shard: a permanently-removed director (no name mapping) gets a fresh
uncached peer id straight from `generate_uuid()`; otherwise the director
is resolved through the translator.  The peer is registered if new and
recorded as primary for the shard's region. -/
def primaryStep (g : Nat → PeerId) (hasName : ServerId → Bool)
    (rangeOf : Nat → Region) (st : BuildState) (is : Nat × Shard) : BuildState :=
  if ¬ hasName is.2.director then
    ⟨⟨st.trans.cache, st.trans.ctr + 1⟩,
     (registerPeer st.bp (g st.trans.ctr)).add_role (g st.trans.ctr) (rangeOf is.1)
       Role.primary⟩
  else
    ⟨(st.trans.server_id_to_peer_id g is.2.director).2,
     (registerPeer st.bp (st.trans.server_id_to_peer_id g is.2.director).1).add_role
       (st.trans.server_id_to_peer_id g is.2.director).1 (rangeOf is.1) Role.primary⟩

/-- Body of the secondaries loop of `construct_blueprint` for one replica
server of one shard: a permanently-removed replica is skipped entirely;
otherwise the replica is resolved, registered if new, and recorded as
secondary for the shard's region unless it is the shard's director. -/
def replicaStep (g : Nat → PeerId) (hasName : ServerId → Bool)
    (director : ServerId) (r : Region) (st : BuildState) (server : ServerId) :
    BuildState :=
  if ¬ hasName server then st
  else
    ⟨(st.trans.server_id_to_peer_id g server).2,
     if server ≠ director then
       (registerPeer st.bp (st.trans.server_id_to_peer_id g server).1).add_role
         (st.trans.server_id_to_peer_id g server).1 r Role.secondary
     else
       registerPeer st.bp (st.trans.server_id_to_peer_id g server).1⟩

/-- The secondaries loop for one indexed shard: fold `replicaStep` over the
shard's replica set. -/
def secondaryShardStep (g : Nat → PeerId) (hasName : ServerId → Bool)
    (rangeOf : Nat → Region) (st : BuildState) (is : Nat × Shard) : BuildState :=
  is.2.replicas.foldl (replicaStep g hasName is.2.director (rangeOf is.1)) st

/-- Body of the every-known-peer loop of `construct_blueprint`: resolve a
server from the (second read of the) topology map through the translator
and register the peer if new. -/
def knownPeerStep (g : Nat → PeerId) (st : BuildState) (e : ServerId × PeerId) :
    BuildState :=
  ⟨(st.trans.server_id_to_peer_id g e.1).2,
   registerPeer st.bp (st.trans.server_id_to_peer_id g e.1).1⟩

/-- One pass of the final loop of `construct_blueprint` for one region:
every registered peer whose role map lacks the region gets
`blueprint_role_nothing` for it. -/
def fillRegion (bp : Blueprint) (r : Region) : Blueprint :=
  bp.map (fun e => if hasKey e.2 r then e else (e.1, e.2 ++ [(r, Role.nothing)]))

/-- The final loop of `construct_blueprint`: for each shard index, fill
`nothing` roles for its region. -/
def fillNothing (rangeOf : Nat → Region) (n : Nat) (bp : Blueprint) : Blueprint :=
  (List.range n).foldl (fun b i => fillRegion b (rangeOf i)) bp

/-- `construct_blueprint(info, name_client)`.

* `g` is the `generate_uuid()` stream: the k-th call made while the global
  call counter is `k` returns `g k`; `k0` is the counter on entry.
* `hasName s` is whether `name_client->get_name_for_server_id(s)` returns
  a name (`false` means the server was permanently removed).
* `snap0` is the value read from
  `name_client->get_server_id_to_peer_id_map()->get()` when the
  `blueprint_id_translator_t` is constructed at the start of the call;
  `snap1` is the value read by the *second* call to the same accessor in
  the every-known-peer step.  The source performs these two separate reads
  of the live watchable; the two parameters expose them.

Returns the blueprint and the final UUID counter. -/
def construct_blueprint (g : Nat → PeerId) (info : TableReplicationInfo)
    (hasName : ServerId → Bool) (snap0 snap1 : List (ServerId × PeerId))
    (k0 : Nat) : Blueprint × Nat :=
  let st0 : BuildState := ⟨⟨snap0, k0⟩, []⟩
  let st1 := info.shards.enum.foldl (primaryStep g hasName info.scheme.rangeOf) st0
  let st2 := info.shards.enum.foldl (secondaryShardStep g hasName info.scheme.rangeOf) st1
  let st3 := snap1.foldl (knownPeerStep g) st2
  (fillNothing info.scheme.rangeOf info.shards.length st3.bp, st3.trans.ctr)

/-- `b`'s translator cache extends `a`'s by appended entries (every
construction step only ever appends to the translator's map). -/
def BuildExtends (a b : BuildState) : Prop :=
  ∃ ext, b.trans.cache = a.trans.cache ++ ext

/-- Every peer registered in `a`'s blueprint is registered in `b`'s. -/
def PeerGrow (a b : BuildState) : Prop :=
  ∀ p : PeerId, a.bp.containsPeer p = true → b.bp.containsPeer p = true

/-- Every primary role present in `b`'s blueprint was already present in
`a`'s (construction steps after the primaries loop add no primaries). -/
def PrimAnti (a b : BuildState) : Prop :=
  ∀ (p : PeerId) (r : Region),
    b.bp.roleOf p r = some Role.primary → a.bp.roleOf p r = some Role.primary

/-- Correspondence between a peer id of one `construct_blueprint` run and
the peer id at the same point of a second run over the same inputs but a
different `generate_uuid()` stream: either both are the same live peer,
or they are the two runs' synthesized UUIDs of the same synthesis step
`j` (the runs start at counters `k1` and `k2` respectively and `d`
synthesis steps have happened so far). -/
def PeerSim (g1 g2 : Nat → PeerId) (k1 k2 d : Nat) (p1 p2 : PeerId) : Prop :=
  (p1 = p2 ∧ p1.isSynth = false) ∨
    (∃ j, j < d ∧ p1 = g1 (k1 + j) ∧ p2 = g2 (k2 + j))

/-- Correspondence between translator-cache entries of two runs. -/
def EntrySim (g1 g2 : Nat → PeerId) (k1 k2 d : Nat)
    (e1 e2 : ServerId × PeerId) : Prop :=
  e1.1 = e2.1 ∧ PeerSim g1 g2 k1 k2 d e1.2 e2.2

/-- Correspondence between blueprint entries of two runs: corresponding
peer keys and identical role maps. -/
def BpEntrySim (g1 g2 : Nat → PeerId) (k1 k2 d : Nat)
    (f1 f2 : PeerId × List (Region × Role)) : Prop :=
  PeerSim g1 g2 k1 k2 d f1.1 f2.1 ∧ f1.2 = f2.2

/-- Full correspondence between the construction states of two runs of
`construct_blueprint` over the same configuration, name mapping, and
topology snapshot, differing only in their `generate_uuid()` streams and
starting counters. -/
def SimStates (g1 g2 : Nat → PeerId) (k1 k2 : Nat) (a b : BuildState) : Prop :=
  ∃ d : Nat, a.trans.ctr = k1 + d ∧ b.trans.ctr = k2 + d ∧
    List.Forall₂ (EntrySim g1 g2 k1 k2 d) a.trans.cache b.trans.cache ∧
    List.Forall₂ (BpEntrySim g1 g2 k1 k2 d) a.bp b.bp

/-- At most one peer holds the primary role for region `r` (blueprint
invariant (ii)). -/
def Blueprint.AtMostOnePrimary (bp : Blueprint) (r : Region) : Prop :=
  ∀ p q : PeerId, bp.roleOf p r = some Role.primary →
    bp.roleOf q r = some Role.primary → p = q

/-- No peer holds the primary role for region `r`. -/
def Blueprint.NoPrimary (bp : Blueprint) (r : Region) : Prop :=
  ∀ p : PeerId, bp.roleOf p r ≠ some Role.primary

/-! ## `watchable_and_reactor_t` ack checker (claim C10) -/

/-- `watchable_and_reactor_t::is_acceptable_ack_set`: returns
`!acks.empty()`. -/
def is_acceptable_ack_set (acks : List PeerId) : Bool :=
  !acks.isEmpty

/-- `write_durability_t`. -/
inductive WriteDurability where
  | soft
  | hard
deriving DecidableEq, Repr

/-- `watchable_and_reactor_t::get_write_durability`: returns
`write_durability_t::HARD` regardless of the peer. -/
def get_write_durability (_peer : PeerId) : WriteDurability :=
  WriteDurability.hard

/-! ## `op_closure_t::apply` (claim C6) -/

/-- Result of applying the atomic op to the watchable blueprint cell: the
cell's new value, and the `bool` the op returns to `apply_atomic_op`.
`watchable_variable_t::apply_atomic_op` fires a notification to watchers
exactly when that `bool` is `true` (this notification contract is the one
piece modelled from the spec; the value computation below is
`op_closure_t::apply` itself). -/
structure ApplyResult where
  newCell : Blueprint
  notifies : Bool
deriving DecidableEq, Repr

/-- `op_closure_t::apply(_bp, bp_ref)`: compares the incoming plan with the
cell's current value; overwrites only when they differ and reports whether
a change happened. -/
def op_closure_apply (bp : Blueprint) (bp_ref : Blueprint) : ApplyResult :=
  let blueprint_changed : Bool := bp_ref ≠ bp
  { newCell := if blueprint_changed then bp else bp_ref
    notifies := blueprint_changed }

/-! ## `reactor_driver_t::on_change` -/

/-- Modelled from the spec: `server_name_collision_exc_t` is raised by the
topology provider (`server_name_client_t`, outside this file) while
`construct_blueprint` resolves the config's server ids, when a
human-facing server name resolves ambiguously to multiple server ids; the
builder only propagates the failure.  `collides s` says whether consulting
server `s` raises the collision; a table's construction fails exactly when
some director or replica of some shard collides. -/
def tableCollides (collides : ServerId → Bool) (info : TableReplicationInfo) : Bool :=
  info.shards.any (fun sh => collides sh.director || sh.replicas.any collides)

/-- A live `watchable_and_reactor_t` handle as the registry sees it: the
observable blueprint cell's current value, tagged with a creation identity
so that destroy-then-recreate is distinguishable from update-in-place. -/
structure Handle where
  hid : Nat
  cell : Blueprint
deriving DecidableEq, Repr

/-- The registry state of `reactor_driver_t`: the `reactor_data` map from
namespace id to live handle, the next handle identity, and the global
`generate_uuid()` counter threaded through blueprint constructions. -/
structure RegState where
  reactor_data : List (Nat × Handle)
  nextHid : Nat
  uuidCtr : Nat

/-- Externally visible actions taken by one `on_change()` pass, in
program order: removing a table's entry from `reactor_data`, spawning the
background `delete_reactor_data` task for a detached handle, constructing
a new handle, and applying `op_closure_t::apply` to an existing handle's
cell (recording whether the watchable notified). -/
inductive REvent where
  | eraseEntry (ns : Nat)
  | spawnDelete (ns : Nat) (hid : Nat)
  | createHandle (ns : Nat) (hid : Nat)
  | applyCell (ns : Nat) (notified : Bool)
deriving DecidableEq, Repr

/-- One table's entry in the namespaces semilattice snapshot:
`it->first` (the namespace id), `it->second.is_deleted()`, and the
table's replication info. -/
structure TableEntry where
  ns : Nat
  deleted : Bool
  info : TableReplicationInfo

/-- The body of the `on_change()` loop for a single table.  Transcribed
branch for branch from the source: a deleted table (or any table once we
were permanently removed) with a live handle is released from
`reactor_data` and handed to a spawned `delete_reactor_data` task;
otherwise, for a non-deleted table, the blueprint is constructed (a name
collision leaves everything untouched and continues), a blueprint that
does not contain our own peer id is skipped, and then either a new handle
is created or the plan is pushed into the existing handle's cell. -/
def on_change_step (g : Nat → PeerId) (hasName collides : ServerId → Bool)
    (snap : List (ServerId × PeerId)) (me : PeerId) (weRemoved : Bool)
    (acc : RegState × List REvent) (t : TableEntry) : RegState × List REvent :=
  if (t.deleted || weRemoved) && hasKey acc.1.reactor_data t.ns then
    match firstVal acc.1.reactor_data t.ns with
    | some h =>
        ({ acc.1 with
             reactor_data := acc.1.reactor_data.filter (fun e => decide (e.1 ≠ t.ns)) },
         acc.2 ++ [REvent.eraseEntry t.ns, REvent.spawnDelete t.ns h.hid])
    | none => acc
  else if !t.deleted then
    if tableCollides collides t.info then
      acc
    else if !(construct_blueprint g t.info hasName snap snap
        acc.1.uuidCtr).1.containsPeer me then
      ({ acc.1 with
           uuidCtr := (construct_blueprint g t.info hasName snap snap acc.1.uuidCtr).2 },
       acc.2)
    else if !hasKey acc.1.reactor_data t.ns then
      ({ acc.1 with
           reactor_data := acc.1.reactor_data ++
             [(t.ns, ⟨acc.1.nextHid,
               (construct_blueprint g t.info hasName snap snap acc.1.uuidCtr).1⟩)]
           nextHid := acc.1.nextHid + 1
           uuidCtr := (construct_blueprint g t.info hasName snap snap acc.1.uuidCtr).2 },
       acc.2 ++ [REvent.createHandle t.ns acc.1.nextHid])
    else
      match firstVal acc.1.reactor_data t.ns with
      | some h =>
          ({ acc.1 with
               reactor_data := acc.1.reactor_data.map (fun e =>
                 if e.1 = t.ns then
                   (e.1, ⟨e.2.hid,
                     (op_closure_apply
                       (construct_blueprint g t.info hasName snap snap
                         acc.1.uuidCtr).1 e.2.cell).newCell⟩)
                 else e)
               uuidCtr :=
                 (construct_blueprint g t.info hasName snap snap acc.1.uuidCtr).2 },
           acc.2 ++ [REvent.applyCell t.ns
             (op_closure_apply
               (construct_blueprint g t.info hasName snap snap acc.1.uuidCtr).1
               h.cell).notifies])
      | none =>
          ({ acc.1 with
               uuidCtr :=
                 (construct_blueprint g t.info hasName snap snap acc.1.uuidCtr).2 },
           acc.2)
  else
    acc

/-- `reactor_driver_t::on_change()`: iterate the per-table body over the
snapshot of the namespaces semilattice, threading the registry state and
collecting the pass's actions. -/
def on_change (g : Nat → PeerId) (hasName collides : ServerId → Bool)
    (snap : List (ServerId × PeerId)) (me : PeerId) (weRemoved : Bool)
    (tables : List TableEntry) (st : RegState) : RegState × List REvent :=
  tables.foldl (on_change_step g hasName collides snap me weRemoved) (st, [])

/-! ## `watchable_and_reactor_t` lifecycle (claims C2, C3) -/

/-- Observable lifecycle operations of one `watchable_and_reactor_t`
handle, in the granularity of the source statements. -/
inductive HEvent where
  | acquireStorage       -- `svs_by_namespace_->get_svs(...)` in `initialize_reactor`
  | createReactor        -- `reactor_.init(new reactor_t(...))`
  | createExporter       -- `directory_exporter_.init(...)`
  | pulseInitialized     -- `reactor_has_been_initialized_.pulse()`
  | destroyExporter      -- `directory_exporter_.reset()` in the destructor body
  | destroyReactor       -- `reactor_.reset()` in the destructor body
  | deleteDirectoryKey   -- `parent_->watchable_var.delete_key(namespace_id_)`
  | destroyMultistore    -- implicit member destructor of `svs_`
  | destroyStoresLifetimer -- implicit member destructor of `stores_lifetimer_`
  | destroySvs           -- `svs_by_namespace->destroy_svs(namespace_id)`
deriving DecidableEq, Repr

/-- The statement sequence of `watchable_and_reactor_t::initialize_reactor`
(the asynchronous initialization coroutine spawned by the constructor). -/
def initialize_reactor_trace : List HEvent :=
  [HEvent.acquireStorage, HEvent.createReactor, HEvent.createExporter,
   HEvent.pulseInitialized]

/-- The event sequence of `~watchable_and_reactor_t` when destruction is
requested after `m` steps of `initialize_reactor` have already executed.

Modelled from the spec for the one primitive outside this file: the
destructor's `reactor_has_been_initialized_.wait_lazily_unordered()` on a
`cond_t` blocks the destructor until `initialize_reactor` has pulsed, so
under the cooperative scheduler the remaining suffix of the
initialization coroutine runs to completion first; then the destructor
body runs (`directory_exporter_.reset()`, `reactor_.reset()`,
`delete_key`), followed by the implicit member destructors in reverse
declaration order — of which `svs_` and `stores_lifetimer_` release the
storage resources (`directory_exporter_` and `reactor_` are already
empty). -/
def destructor_trace (m : Nat) : List HEvent :=
  initialize_reactor_trace.drop m ++
    [HEvent.destroyExporter, HEvent.destroyReactor, HEvent.deleteDirectoryKey,
     HEvent.destroyMultistore, HEvent.destroyStoresLifetimer]

/-- The event sequence of `reactor_driver_t::delete_reactor_data` (the
background teardown task): `delete thing_to_delete` runs the destructor,
then `svs_by_namespace->destroy_svs(namespace_id)` releases the
namespace's serializer file. -/
def delete_reactor_data_trace (m : Nat) : List HEvent :=
  destructor_trace m ++ [HEvent.destroySvs]

/-- The full lifecycle trace of a handle whose teardown was requested when
`m` initialization steps had executed: the initialization prefix that ran
before teardown was requested, then the teardown task's events. -/
def lifecycle_trace (m : Nat) : List HEvent :=
  initialize_reactor_trace.take m ++ delete_reactor_data_trace m

/-- The four teardown steps the specification names. -/
inductive TeardownStep where
  | exportLinkDestroyed
  | reactorDestroyed
  | directoryKeyRemoved
  | storageReleased
deriving DecidableEq, Repr

/-- Which teardown step (if any) a lifecycle event realises.  The two
storage-owning member destructors (`svs_`, `stores_lifetimer_`) and the
registry's `destroy_svs` call together realise the release-storage
step. -/
def classifyTeardown : HEvent → Option TeardownStep
  | HEvent.destroyExporter => some TeardownStep.exportLinkDestroyed
  | HEvent.destroyReactor => some TeardownStep.reactorDestroyed
  | HEvent.deleteDirectoryKey => some TeardownStep.directoryKeyRemoved
  | HEvent.destroyMultistore => some TeardownStep.storageReleased
  | HEvent.destroyStoresLifetimer => some TeardownStep.storageReleased
  | HEvent.destroySvs => some TeardownStep.storageReleased
  | _ => none

end ReactorDriver

namespace ReactorDriver

/-! ## Association-list and blueprint lemmas -/

theorem firstVal_append_left {κ β : Type} [DecidableEq κ] {l₁ : List (κ × β)}
    (l₂ : List (κ × β)) {k : κ} {v : β} (h : firstVal l₁ k = some v) :
    firstVal (l₁ ++ l₂) k = some v := by
  induction l₁ with
  | nil => exact Option.noConfusion h
  | cons e rest ih =>
      by_cases he : e.1 = k
      · simpa [firstVal, he] using h
      · simp only [firstVal, he, if_false, List.cons_append] at h ⊢
        exact ih h

theorem firstVal_append_none {κ β : Type} [DecidableEq κ] {l₁ : List (κ × β)}
    (l₂ : List (κ × β)) {k : κ} (h : firstVal l₁ k = none) :
    firstVal (l₁ ++ l₂) k = firstVal l₂ k := by
  induction l₁ with
  | nil => rfl
  | cons e rest ih =>
      by_cases he : e.1 = k
      · simp [firstVal, he] at h
      · simp only [firstVal, he, if_false] at h
        simpa [firstVal, he] using ih h

theorem firstVal_mem {κ β : Type} [DecidableEq κ] {l : List (κ × β)} {k : κ} {v : β}
    (h : firstVal l k = some v) : (k, v) ∈ l := by
  induction l with
  | nil => exact Option.noConfusion h
  | cons e rest ih =>
      by_cases he : e.1 = k
      · simp only [firstVal, he, if_true, Option.some.injEq] at h
        have hkv : (k, v) = (e.1, e.2) := by rw [he, h]
        rw [hkv]
        exact List.mem_cons_self _ _
      · simp only [firstVal, he, if_false] at h
        exact List.mem_cons_of_mem _ (ih h)

theorem firstVal_eq_none_of_all {κ β : Type} [DecidableEq κ] {l : List (κ × β)} {k : κ}
    (h : ∀ e ∈ l, e.1 ≠ k) : firstVal l k = none := by
  induction l with
  | nil => rfl
  | cons e rest ih =>
      have he : e.1 ≠ k := h e (List.mem_cons_self e rest)
      simp only [firstVal, he, if_false]
      exact ih fun x hx => h x (List.mem_cons_of_mem _ hx)

theorem hasKey_eq_false_iff {κ β : Type} [DecidableEq κ] {l : List (κ × β)} {k : κ} :
    hasKey l k = false ↔ firstVal l k = none := by
  unfold hasKey
  cases hv : firstVal l k <;> simp

theorem firstVal_map_replace {roles : List (Region × Role)} {r r' : Region} {ro : Role}
    (h : r' ≠ r) :
    firstVal (roles.map (fun e => if e.1 = r then (r, ro) else e)) r' =
      firstVal roles r' := by
  induction roles with
  | nil => rfl
  | cons e rest ih =>
      by_cases he : e.1 = r
      · have hr : ¬ ((r, ro).1 = r') := fun hr => h (hr.symm)
        have he' : ¬ (e.1 = r') := fun hc => h (by rw [← hc, he])
        simp only [List.map_cons, he, if_true]
        simp only [firstVal, hr, he', if_false]
        exact ih
      · simp only [List.map_cons, he, if_false]
        by_cases he' : e.1 = r' <;> simp [firstVal, he', ih]

theorem firstVal_map_replace_self {roles : List (Region × Role)} {r : Region} {ro : Role}
    (hk : hasKey roles r = true) :
    firstVal (roles.map (fun e => if e.1 = r then (r, ro) else e)) r = some ro := by
  induction roles with
  | nil => simp [hasKey, firstVal] at hk
  | cons e rest ih =>
      by_cases he : e.1 = r
      · simp [firstVal, he]
      · simp only [hasKey, firstVal, he, if_false] at hk
        simp only [List.map_cons, he, if_false]
        simp only [firstVal, he, if_false]
        exact ih hk

theorem firstVal_setRole_self {roles : List (Region × Role)} {r : Region} {ro : Role} :
    firstVal (setRole roles r ro) r = some ro := by
  unfold setRole
  by_cases hk : hasKey roles r = true
  · rw [if_pos hk]
    exact firstVal_map_replace_self hk
  · rw [if_neg hk]
    have hnone : firstVal roles r = none :=
      hasKey_eq_false_iff.mp (by simpa using hk)
    rw [firstVal_append_none _ hnone]
    simp [firstVal]

theorem firstVal_setRole_other {roles : List (Region × Role)} {r r' : Region} {ro : Role}
    (h : r' ≠ r) : firstVal (setRole roles r ro) r' = firstVal roles r' := by
  unfold setRole
  by_cases hk : hasKey roles r = true
  · rw [if_pos hk]
    exact firstVal_map_replace h
  · rw [if_neg hk]
    cases hv : firstVal roles r' with
    | some v => exact firstVal_append_left _ hv
    | none =>
        rw [firstVal_append_none _ hv]
        have hne : ¬ ((r, ro).1 = r') := fun hr => h hr.symm
        simp [firstVal, hne]

theorem rolesOf_add_peer {bp : Blueprint} {p q : PeerId} :
    (bp.add_peer p).rolesOf q =
      match bp.rolesOf q with
      | some roles => some roles
      | none => if p = q then some [] else none := by
  unfold Blueprint.add_peer Blueprint.rolesOf
  cases hv : firstVal bp q with
  | some roles => simpa using firstVal_append_left _ hv
  | none =>
      rw [firstVal_append_none _ hv]
      simp [firstVal]

theorem containsPeer_add_peer {bp : Blueprint} {p q : PeerId} :
    (bp.add_peer p).containsPeer q = (bp.containsPeer q || decide (p = q)) := by
  unfold Blueprint.containsPeer hasKey
  rw [show firstVal (bp.add_peer p) q = (bp.add_peer p).rolesOf q from rfl,
      rolesOf_add_peer]
  cases hv : firstVal bp q with
  | some roles => simp [Blueprint.rolesOf, hv]
  | none =>
      by_cases hpq : p = q <;> simp [Blueprint.rolesOf, hv, hpq]

theorem roleOf_add_peer {bp : Blueprint} {p q : PeerId} {r : Region} :
    (bp.add_peer p).roleOf q r = bp.roleOf q r := by
  unfold Blueprint.roleOf
  rw [rolesOf_add_peer]
  cases hv : bp.rolesOf q with
  | some roles => rfl
  | none => by_cases hpq : p = q <;> simp [hpq, firstVal]

theorem rolesOf_add_role {bp : Blueprint} {p q : PeerId} {r : Region} {ro : Role} :
    (bp.add_role p r ro).rolesOf q =
      (bp.rolesOf q).map (fun roles => if q = p then setRole roles r ro else roles) := by
  unfold Blueprint.add_role Blueprint.rolesOf
  induction bp with
  | nil => rfl
  | cons e rest ih =>
      by_cases hep : e.1 = p
      · by_cases heq : e.1 = q
        · have hqp : q = p := heq ▸ hep
          simp [firstVal, hep, heq, hqp]
        · have hpq : ¬ (p = q) := fun h => heq (hep.symm ▸ h)
          simp only [List.map_cons, hep, if_true]
          simp only [firstVal, hpq, if_false, heq]
          exact ih
      · by_cases heq : e.1 = q
        · have hqp : ¬ (q = p) := fun h => hep (heq ▸ h)
          simp [firstVal, hep, heq, hqp]
        · simp only [List.map_cons, hep, if_false]
          simp only [firstVal, heq, if_false]
          exact ih

theorem containsPeer_add_role {bp : Blueprint} {p q : PeerId} {r : Region} {ro : Role} :
    (bp.add_role p r ro).containsPeer q = bp.containsPeer q := by
  unfold Blueprint.containsPeer hasKey
  rw [show firstVal (bp.add_role p r ro) q = (bp.add_role p r ro).rolesOf q from rfl,
      rolesOf_add_role]
  cases hv : bp.rolesOf q <;> simp [Blueprint.rolesOf] at hv <;> simp [hv]

theorem keys_ne_of_firstVal_none {κ β : Type} [DecidableEq κ] {l : List (κ × β)} {k : κ}
    (h : firstVal l k = none) : ∀ e ∈ l, e.1 ≠ k := by
  induction l with
  | nil => intro e he; exact absurd he (List.not_mem_nil e)
  | cons e' rest ih =>
      intro e he
      by_cases h' : e'.1 = k
      · simp [firstVal, h'] at h
      · rcases List.mem_cons.mp he with he' | he'
        · rw [he']; exact h'
        · simp only [firstVal, h', if_false] at h
          exact ih h e he'

theorem add_role_of_not_contains {bp : Blueprint} {p : PeerId} {r : Region} {ro : Role}
    (h : bp.containsPeer p = false) : bp.add_role p r ro = bp := by
  unfold Blueprint.add_role
  have hnone : firstVal bp p = none := by
    unfold Blueprint.containsPeer at h
    exact hasKey_eq_false_iff.mp h
  have hall := keys_ne_of_firstVal_none hnone
  calc bp.map (fun e => if e.1 = p then (p, setRole e.2 r ro) else e)
      = bp.map id := List.map_congr_left (fun e he => by simp [hall e he])
  _ = bp := List.map_id bp

theorem roleOf_add_role_self {bp : Blueprint} {p : PeerId} {r : Region} {ro : Role}
    (h : bp.containsPeer p = true) : (bp.add_role p r ro).roleOf p r = some ro := by
  unfold Blueprint.roleOf
  rw [rolesOf_add_role]
  unfold Blueprint.containsPeer hasKey at h
  cases hv : bp.rolesOf p with
  | some roles => simp [firstVal_setRole_self]
  | none => unfold Blueprint.rolesOf at hv; rw [hv] at h; simp at h

theorem roleOf_add_role_other {bp : Blueprint} {p q : PeerId} {r r' : Region} {ro : Role}
    (h : q ≠ p ∨ r' ≠ r) : (bp.add_role p r ro).roleOf q r' = bp.roleOf q r' := by
  unfold Blueprint.roleOf
  rw [rolesOf_add_role]
  cases hv : bp.rolesOf q with
  | some roles =>
      rcases h with h | h
      · simp [h]
      · by_cases hqp : q = p
        · simp [hqp, firstVal_setRole_other h]
        · simp [hqp]
  | none => rfl

theorem roleOf_add_role_primary {bp : Blueprint} {p q : PeerId} {r r' : Region} {ro : Role}
    (hro : ro ≠ Role.primary)
    (h : (bp.add_role p r ro).roleOf q r' = some Role.primary) :
    bp.roleOf q r' = some Role.primary := by
  by_cases hq : q = p
  · by_cases hr : r' = r
    · rw [hq, hr] at h ⊢
      cases hc : bp.containsPeer p with
      | true =>
          rw [roleOf_add_role_self hc] at h
          exact absurd (Option.some.inj h) hro
      | false =>
          rw [add_role_of_not_contains hc] at h
          exact h
    · rw [roleOf_add_role_other (Or.inr hr)] at h
      exact h
  · rw [roleOf_add_role_other (Or.inl hq)] at h
    exact h

theorem rolesOf_fillRegion {bp : Blueprint} {r : Region} {q : PeerId} :
    (fillRegion bp r).rolesOf q =
      (bp.rolesOf q).map
        (fun roles => if hasKey roles r then roles else roles ++ [(r, Role.nothing)]) := by
  unfold fillRegion Blueprint.rolesOf
  induction bp with
  | nil => rfl
  | cons e rest ih =>
      simp only [List.map_cons]
      by_cases hk : hasKey e.2 r = true
      · rw [if_pos hk]
        by_cases heq : e.1 = q
        · simp [firstVal, heq, hk]
        · simp only [firstVal, heq, if_false]
          exact ih
      · rw [if_neg hk]
        by_cases heq : e.1 = q
        · simp [firstVal, heq, hk]
        · simp only [firstVal, heq, if_false]
          exact ih

theorem containsPeer_fillRegion {bp : Blueprint} {r : Region} {q : PeerId} :
    (fillRegion bp r).containsPeer q = bp.containsPeer q := by
  show hasKey (fillRegion bp r) q = hasKey bp q
  unfold hasKey
  rw [show firstVal (fillRegion bp r) q = (fillRegion bp r).rolesOf q from rfl,
      show firstVal bp q = bp.rolesOf q from rfl, rolesOf_fillRegion]
  cases bp.rolesOf q with
  | none => rfl
  | some roles => rfl

theorem roleOf_fillRegion_of_some {bp : Blueprint} {r r' : Region} {q : PeerId} {ro : Role}
    (h : bp.roleOf q r' = some ro) : (fillRegion bp r).roleOf q r' = some ro := by
  unfold Blueprint.roleOf at h ⊢
  rw [rolesOf_fillRegion]
  cases hv : bp.rolesOf q with
  | some roles =>
      rw [hv] at h
      rw [Option.some_bind] at h
      rw [Option.map_some', Option.some_bind]
      by_cases hk : hasKey roles r = true
      · rw [if_pos hk]
        exact h
      · rw [if_neg hk]
        exact firstVal_append_left _ h
  | none =>
      rw [hv] at h
      exact Option.noConfusion h

theorem roleOf_fillRegion_self {bp : Blueprint} {r : Region} {q : PeerId}
    (hq : bp.containsPeer q = true) (h : bp.roleOf q r = none) :
    (fillRegion bp r).roleOf q r = some Role.nothing := by
  unfold Blueprint.roleOf at h ⊢
  rw [rolesOf_fillRegion]
  cases hv : bp.rolesOf q with
  | some roles =>
      rw [hv, Option.some_bind] at h
      have hk : hasKey roles r = false := hasKey_eq_false_iff.mpr h
      rw [Option.map_some', Option.some_bind,
          if_neg (by rw [hk]; exact Bool.false_ne_true)]
      rw [firstVal_append_none _ h]
      simp [firstVal]
  | none =>
      unfold Blueprint.containsPeer at hq
      rw [show hasKey bp q = (bp.rolesOf q).isSome from rfl, hv] at hq
      exact Bool.noConfusion hq

theorem roleOf_fillRegion_antitone {bp : Blueprint} {r r' : Region} {q : PeerId} {ro : Role}
    (hro : ro ≠ Role.nothing)
    (h : (fillRegion bp r).roleOf q r' = some ro) : bp.roleOf q r' = some ro := by
  unfold Blueprint.roleOf at h ⊢
  rw [rolesOf_fillRegion] at h
  cases hv : bp.rolesOf q with
  | some roles =>
      rw [hv, Option.map_some', Option.some_bind] at h
      rw [Option.some_bind]
      by_cases hk : hasKey roles r = true
      · rw [if_pos hk] at h
        exact h
      · rw [if_neg hk] at h
        cases hfv : firstVal roles r' with
        | some v =>
            rw [firstVal_append_left _ hfv] at h
            exact h
        | none =>
            rw [firstVal_append_none _ hfv] at h
            simp only [firstVal] at h
            by_cases hr : r = r'
            · rw [if_pos hr] at h
              exact absurd (Option.some.inj h).symm hro
            · rw [if_neg hr] at h
              exact Option.noConfusion h
  | none =>
      rw [hv] at h
      exact Option.noConfusion h

/-- Fold a step function that only ever moves states along a reflexive
transitive relation. -/
theorem foldl_rel {α σ : Type} {R : σ → σ → Prop}
    (htrans : ∀ a b c, R a b → R b c → R a c)
    {f : σ → α → σ} (hf : ∀ s x, R s (f s x)) (hrefl : ∀ s, R s s) :
    ∀ (L : List α) (s : σ), R s (L.foldl f s) := by
  intro L
  induction L with
  | nil => intro s; exact hrefl s
  | cons x rest ih =>
      intro s
      exact htrans _ _ _ (hf s x) (ih (f s x))

/-! ## Lemmas about the translator and the construction steps -/

theorem server_id_to_peer_id_of_some {g : Nat → PeerId} {st : TransState} {s : ServerId}
    {p : PeerId} (h : firstVal st.cache s = some p) :
    st.server_id_to_peer_id g s = (p, st) := by
  unfold TransState.server_id_to_peer_id
  rw [h]

theorem server_id_to_peer_id_of_none {g : Nat → PeerId} {st : TransState} {s : ServerId}
    (h : firstVal st.cache s = none) :
    st.server_id_to_peer_id g s =
      (g st.ctr, ⟨st.cache ++ [(s, g st.ctr)], st.ctr + 1⟩) := by
  unfold TransState.server_id_to_peer_id
  rw [h]

theorem buildExtends_refl (a : BuildState) : BuildExtends a a :=
  ⟨[], (List.append_nil _).symm⟩

theorem buildExtends_trans (a b c : BuildState)
    (h1 : BuildExtends a b) (h2 : BuildExtends b c) : BuildExtends a c := by
  obtain ⟨e1, he1⟩ := h1
  obtain ⟨e2, he2⟩ := h2
  exact ⟨e1 ++ e2, by rw [he2, he1, List.append_assoc]⟩

theorem primaryStep_extends {g : Nat → PeerId} {hasName : ServerId → Bool}
    {rangeOf : Nat → Region} (st : BuildState) (is : Nat × Shard) :
    BuildExtends st (primaryStep g hasName rangeOf st is) := by
  unfold primaryStep
  by_cases hn : hasName is.2.director = true
  · rw [if_neg (by simp [hn])]
    cases h : firstVal st.trans.cache is.2.director with
    | some p =>
        rw [server_id_to_peer_id_of_some h]
        exact ⟨[], (List.append_nil _).symm⟩
    | none =>
        rw [server_id_to_peer_id_of_none h]
        exact ⟨[(is.2.director, g st.trans.ctr)], rfl⟩
  · rw [if_pos (by simp [hn])]
    exact ⟨[], (List.append_nil _).symm⟩

theorem replicaStep_extends {g : Nat → PeerId} {hasName : ServerId → Bool}
    {director : ServerId} {r : Region} (st : BuildState) (server : ServerId) :
    BuildExtends st (replicaStep g hasName director r st server) := by
  unfold replicaStep
  by_cases hs : hasName server = true
  · rw [if_neg (by simp [hs])]
    cases h : firstVal st.trans.cache server with
    | some p =>
        rw [server_id_to_peer_id_of_some h]
        exact ⟨[], (List.append_nil _).symm⟩
    | none =>
        rw [server_id_to_peer_id_of_none h]
        exact ⟨[(server, g st.trans.ctr)], rfl⟩
  · rw [if_pos (by simp [hs])]
    exact buildExtends_refl st

theorem knownPeerStep_extends {g : Nat → PeerId} (st : BuildState)
    (e : ServerId × PeerId) : BuildExtends st (knownPeerStep g st e) := by
  unfold knownPeerStep
  cases h : firstVal st.trans.cache e.1 with
  | some p =>
      rw [server_id_to_peer_id_of_some h]
      exact ⟨[], (List.append_nil _).symm⟩
  | none =>
      rw [server_id_to_peer_id_of_none h]
      exact ⟨[(e.1, g st.trans.ctr)], rfl⟩

theorem secondaryShardStep_extends {g : Nat → PeerId} {hasName : ServerId → Bool}
    {rangeOf : Nat → Region} (st : BuildState) (is : Nat × Shard) :
    BuildExtends st (secondaryShardStep g hasName rangeOf st is) :=
  foldl_rel buildExtends_trans (fun st s => replicaStep_extends st s)
    buildExtends_refl is.2.replicas st

theorem registerPeer_contains_self {bp : Blueprint} {p : PeerId} :
    (registerPeer bp p).containsPeer p = true := by
  unfold registerPeer
  by_cases hc : bp.containsPeer p = true
  · rw [if_neg (by simp [hc])]
    exact hc
  · rw [if_pos (by simp [hc])]
    rw [containsPeer_add_peer]
    simp

theorem registerPeer_mono {bp : Blueprint} {p q : PeerId}
    (h : bp.containsPeer q = true) : (registerPeer bp p).containsPeer q = true := by
  unfold registerPeer
  by_cases hc : bp.containsPeer p = true
  · rw [if_neg (by simp [hc])]
    exact h
  · rw [if_pos (by simp [hc])]
    rw [containsPeer_add_peer, h]
    rfl

theorem roleOf_registerPeer {bp : Blueprint} {p q : PeerId} {r : Region} :
    (registerPeer bp p).roleOf q r = bp.roleOf q r := by
  unfold registerPeer
  by_cases hc : bp.containsPeer p = true
  · rw [if_neg (by simp [hc])]
  · rw [if_pos (by simp [hc])]
    exact roleOf_add_peer

theorem primaryStep_peerGrow {g : Nat → PeerId} {hasName : ServerId → Bool}
    {rangeOf : Nat → Region} (st : BuildState) (is : Nat × Shard) :
    PeerGrow st (primaryStep g hasName rangeOf st is) := by
  intro p hp
  unfold primaryStep
  by_cases hn : hasName is.2.director = true
  · rw [if_neg (by simp [hn])]
    show ((registerPeer st.bp _).add_role _ _ _).containsPeer p = true
    rw [containsPeer_add_role]
    exact registerPeer_mono hp
  · rw [if_pos (by simp [hn])]
    show ((registerPeer st.bp _).add_role _ _ _).containsPeer p = true
    rw [containsPeer_add_role]
    exact registerPeer_mono hp

theorem replicaStep_peerGrow {g : Nat → PeerId} {hasName : ServerId → Bool}
    {director : ServerId} {r : Region} (st : BuildState) (server : ServerId) :
    PeerGrow st (replicaStep g hasName director r st server) := by
  intro p hp
  unfold replicaStep
  by_cases hs : hasName server = true
  · rw [if_neg (by simp [hs])]
    by_cases hd : server ≠ director
    · rw [if_pos hd]
      show ((registerPeer st.bp _).add_role _ _ _).containsPeer p = true
      rw [containsPeer_add_role]
      exact registerPeer_mono hp
    · rw [if_neg hd]
      exact registerPeer_mono hp
  · rw [if_pos (by simp [hs])]
    exact hp

theorem knownPeerStep_peerGrow {g : Nat → PeerId} (st : BuildState)
    (e : ServerId × PeerId) : PeerGrow st (knownPeerStep g st e) := by
  intro p hp
  exact registerPeer_mono hp

theorem secondaryShardStep_peerGrow {g : Nat → PeerId} {hasName : ServerId → Bool}
    {rangeOf : Nat → Region} (st : BuildState) (is : Nat × Shard) :
    PeerGrow st (secondaryShardStep g hasName rangeOf st is) :=
  foldl_rel (fun _ _ _ hab hbc p hp => hbc p (hab p hp))
    (fun st s => replicaStep_peerGrow st s) (fun _ _ hp => hp) is.2.replicas st

theorem bool_eq_false_of_ne_true {b : Bool} (h : ¬ b = true) : b = false := by
  revert h
  cases b <;> simp

theorem primaryStep_eq_removed {g : Nat → PeerId} {hasName : ServerId → Bool}
    {rangeOf : Nat → Region} {st : BuildState} {is : Nat × Shard}
    (hn : hasName is.2.director = false) :
    primaryStep g hasName rangeOf st is =
      ⟨⟨st.trans.cache, st.trans.ctr + 1⟩,
       (registerPeer st.bp (g st.trans.ctr)).add_role (g st.trans.ctr) (rangeOf is.1)
         Role.primary⟩ := by
  unfold primaryStep
  rw [if_pos (by simp [hn])]

theorem primaryStep_eq_live {g : Nat → PeerId} {hasName : ServerId → Bool}
    {rangeOf : Nat → Region} {st : BuildState} {is : Nat × Shard}
    (hn : hasName is.2.director = true) :
    primaryStep g hasName rangeOf st is =
      ⟨(st.trans.server_id_to_peer_id g is.2.director).2,
       (registerPeer st.bp (st.trans.server_id_to_peer_id g is.2.director).1).add_role
         (st.trans.server_id_to_peer_id g is.2.director).1 (rangeOf is.1)
         Role.primary⟩ := by
  unfold primaryStep
  rw [if_neg (by simp [hn])]

theorem replicaStep_eq_skip {g : Nat → PeerId} {hasName : ServerId → Bool}
    {director : ServerId} {r : Region} {st : BuildState} {server : ServerId}
    (hs : hasName server = false) :
    replicaStep g hasName director r st server = st := by
  unfold replicaStep
  rw [if_pos (by simp [hs])]

theorem replicaStep_eq_secondary {g : Nat → PeerId} {hasName : ServerId → Bool}
    {director : ServerId} {r : Region} {st : BuildState} {server : ServerId}
    (hs : hasName server = true) (hd : server ≠ director) :
    replicaStep g hasName director r st server =
      ⟨(st.trans.server_id_to_peer_id g server).2,
       (registerPeer st.bp (st.trans.server_id_to_peer_id g server).1).add_role
         (st.trans.server_id_to_peer_id g server).1 r Role.secondary⟩ := by
  unfold replicaStep
  rw [if_neg (by simp [hs]), if_pos hd]

theorem replicaStep_eq_director {g : Nat → PeerId} {hasName : ServerId → Bool}
    {director : ServerId} {r : Region} {st : BuildState} {server : ServerId}
    (hs : hasName server = true) (hd : server = director) :
    replicaStep g hasName director r st server =
      ⟨(st.trans.server_id_to_peer_id g server).2,
       registerPeer st.bp (st.trans.server_id_to_peer_id g server).1⟩ := by
  unfold replicaStep
  rw [if_neg (by simp [hs]), if_neg (by simp [hd])]

theorem primaryStep_roleOf_other {g : Nat → PeerId} {hasName : ServerId → Bool}
    {rangeOf : Nat → Region} {st : BuildState} {is : Nat × Shard} {rt : Region}
    (hne : rangeOf is.1 ≠ rt) (q : PeerId) :
    (primaryStep g hasName rangeOf st is).bp.roleOf q rt = st.bp.roleOf q rt := by
  by_cases hn : hasName is.2.director = true
  · rw [primaryStep_eq_live hn]
    show ((registerPeer st.bp _).add_role _ _ _).roleOf q rt = _
    rw [roleOf_add_role_other (Or.inr (Ne.symm hne)), roleOf_registerPeer]
  · rw [primaryStep_eq_removed (bool_eq_false_of_ne_true hn)]
    show ((registerPeer st.bp _).add_role _ _ _).roleOf q rt = _
    rw [roleOf_add_role_other (Or.inr (Ne.symm hne)), roleOf_registerPeer]

theorem primaryStep_primary_unique {g : Nat → PeerId} {hasName : ServerId → Bool}
    {rangeOf : Nat → Region} {st : BuildState} {is : Nat × Shard} {rt : Region}
    (hrt : rangeOf is.1 = rt) (hnp : st.bp.NoPrimary rt) :
    ∃ pr : PeerId, ∀ q : PeerId,
      (primaryStep g hasName rangeOf st is).bp.roleOf q rt = some Role.primary →
        q = pr := by
  subst hrt
  by_cases hn : hasName is.2.director = true
  · refine ⟨(st.trans.server_id_to_peer_id g is.2.director).1, fun q h => ?_⟩
    rw [primaryStep_eq_live hn] at h
    by_cases hq : q = (st.trans.server_id_to_peer_id g is.2.director).1
    · exact hq
    · have h2 : ((registerPeer st.bp (st.trans.server_id_to_peer_id g is.2.director).1).add_role
          (st.trans.server_id_to_peer_id g is.2.director).1 (rangeOf is.1)
          Role.primary).roleOf q (rangeOf is.1) = some Role.primary := h
      rw [roleOf_add_role_other (Or.inl hq), roleOf_registerPeer] at h2
      exact absurd h2 (hnp q)
  · refine ⟨g st.trans.ctr, fun q h => ?_⟩
    rw [primaryStep_eq_removed (bool_eq_false_of_ne_true hn)] at h
    by_cases hq : q = g st.trans.ctr
    · exact hq
    · have h2 : ((registerPeer st.bp (g st.trans.ctr)).add_role (g st.trans.ctr)
          (rangeOf is.1) Role.primary).roleOf q (rangeOf is.1) = some Role.primary := h
      rw [roleOf_add_role_other (Or.inl hq), roleOf_registerPeer] at h2
      exact absurd h2 (hnp q)

theorem primaries_fold_atMostOne {g : Nat → PeerId} {hasName : ServerId → Bool}
    {rangeOf : Nat → Region} :
    ∀ (L : List (Nat × Shard)) (st : BuildState) (rt : Region),
      L.countP (fun is => decide (rangeOf is.1 = rt)) ≤ 1 →
      st.bp.AtMostOnePrimary rt →
      (0 < L.countP (fun is => decide (rangeOf is.1 = rt)) → st.bp.NoPrimary rt) →
      ((L.foldl (primaryStep g hasName rangeOf) st).bp.AtMostOnePrimary rt) := by
  intro L
  induction L with
  | nil => intro st rt _ hm _; exact hm
  | cons is L' ih =>
      intro st rt hc hm hn
      rw [List.foldl_cons]
      rw [List.countP_cons] at hc hn
      by_cases hx : rangeOf is.1 = rt
      · have hd : (decide (rangeOf is.1 = rt)) = true := decide_eq_true hx
        rw [hd, if_pos rfl] at hc hn
        have hcnt : L'.countP (fun is => decide (rangeOf is.1 = rt)) = 0 := by omega
        have hnp : st.bp.NoPrimary rt := hn (by omega)
        obtain ⟨pr, hpr⟩ := primaryStep_primary_unique hx hnp
        apply ih
        · rw [hcnt]
          exact Nat.zero_le 1
        · intro p q hp hq
          rw [hpr p hp, hpr q hq]
        · intro hpos
          rw [hcnt] at hpos
          exact absurd hpos (by omega)
      · have hd : (decide (rangeOf is.1 = rt)) = false := decide_eq_false hx
        rw [hd, if_neg Bool.false_ne_true] at hc hn
        apply ih
        · omega
        · intro p q hp hq
          rw [primaryStep_roleOf_other hx] at hp hq
          exact hm p q hp hq
        · intro hpos
          have hnp : st.bp.NoPrimary rt := hn (by omega)
          intro p hp
          rw [primaryStep_roleOf_other hx] at hp
          exact hnp p hp

theorem replicaStep_primAnti {g : Nat → PeerId} {hasName : ServerId → Bool}
    {director : ServerId} {r : Region} (st : BuildState) (server : ServerId) :
    PrimAnti st (replicaStep g hasName director r st server) := by
  intro p rr h
  by_cases hs : hasName server = true
  · by_cases hd : server ≠ director
    · rw [replicaStep_eq_secondary hs hd] at h
      have h2 : ((registerPeer st.bp (st.trans.server_id_to_peer_id g server).1).add_role
          (st.trans.server_id_to_peer_id g server).1 r Role.secondary).roleOf p rr =
            some Role.primary := h
      have h3 := roleOf_add_role_primary (by decide) h2
      rw [roleOf_registerPeer] at h3
      exact h3
    · rw [replicaStep_eq_director hs (not_not.mp hd)] at h
      have h2 : (registerPeer st.bp
          (st.trans.server_id_to_peer_id g server).1).roleOf p rr = some Role.primary := h
      rw [roleOf_registerPeer] at h2
      exact h2
  · rw [replicaStep_eq_skip (bool_eq_false_of_ne_true hs)] at h
    exact h

theorem secondaryShardStep_primAnti {g : Nat → PeerId} {hasName : ServerId → Bool}
    {rangeOf : Nat → Region} (st : BuildState) (is : Nat × Shard) :
    PrimAnti st (secondaryShardStep g hasName rangeOf st is) :=
  foldl_rel (fun _ _ _ hab hbc p r h => hab p r (hbc p r h))
    (fun st s => replicaStep_primAnti st s) (fun _ _ _ h => h) is.2.replicas st

theorem knownPeerStep_roleOf {g : Nat → PeerId} (st : BuildState)
    (e : ServerId × PeerId) (q : PeerId) (r : Region) :
    (knownPeerStep g st e).bp.roleOf q r = st.bp.roleOf q r :=
  roleOf_registerPeer

theorem secondaries_fold_extends (g : Nat → PeerId) (hasName : ServerId → Bool)
    (rangeOf : Nat → Region) (L : List (Nat × Shard)) (st : BuildState) :
    BuildExtends st (L.foldl (secondaryShardStep g hasName rangeOf) st) :=
  foldl_rel buildExtends_trans (fun st is => secondaryShardStep_extends st is)
    buildExtends_refl L st

theorem primaries_fold_extends (g : Nat → PeerId) (hasName : ServerId → Bool)
    (rangeOf : Nat → Region) (L : List (Nat × Shard)) (st : BuildState) :
    BuildExtends st (L.foldl (primaryStep g hasName rangeOf) st) :=
  foldl_rel buildExtends_trans (fun st is => primaryStep_extends st is)
    buildExtends_refl L st

theorem secondaries_fold_primAnti {g : Nat → PeerId} {hasName : ServerId → Bool}
    {rangeOf : Nat → Region} (L : List (Nat × Shard)) (st : BuildState) :
    PrimAnti st (L.foldl (secondaryShardStep g hasName rangeOf) st) :=
  foldl_rel (fun _ _ _ hab hbc p r h => hab p r (hbc p r h))
    (fun st is => secondaryShardStep_primAnti st is) (fun _ _ _ h => h) L st

theorem knownPeers_fold_primAnti {g : Nat → PeerId}
    (L : List (ServerId × PeerId)) (st : BuildState) :
    PrimAnti st (L.foldl (knownPeerStep g) st) :=
  foldl_rel (fun _ _ _ hab hbc p r h => hab p r (hbc p r h))
    (fun st e p r h => by rw [knownPeerStep_roleOf] at h; exact h)
    (fun _ _ _ h => h) L st

theorem knownPeers_fold_peerGrow {g : Nat → PeerId}
    (L : List (ServerId × PeerId)) (st : BuildState) :
    PeerGrow st (L.foldl (knownPeerStep g) st) :=
  foldl_rel (fun _ _ _ hab hbc p h => hbc p (hab p h))
    (fun st e => knownPeerStep_peerGrow st e) (fun _ _ h => h) L st

theorem knownPeers_fold_extends {g : Nat → PeerId}
    (L : List (ServerId × PeerId)) (st : BuildState) :
    BuildExtends st (L.foldl (knownPeerStep g) st) :=
  foldl_rel buildExtends_trans (fun st e => knownPeerStep_extends st e)
    buildExtends_refl L st

theorem knownPeers_fold_registered {g : Nat → PeerId}
    {snap : List (ServerId × PeerId)} :
    ∀ (L : List (ServerId × PeerId)) (st : BuildState),
      (∃ ext, st.trans.cache = snap ++ ext) →
      ∀ e ∈ L, ∀ p : PeerId, firstVal snap e.1 = some p →
        ((L.foldl (knownPeerStep g) st).bp.containsPeer p = true) := by
  intro L
  induction L with
  | nil => intro st _ e he; exact absurd he (List.not_mem_nil e)
  | cons e0 L' ih =>
      intro st hext e he p hp
      rw [List.foldl_cons]
      rcases List.mem_cons.mp he with he' | he'
      · subst he'
        obtain ⟨ext, hcache⟩ := hext
        have hres : firstVal st.trans.cache e.1 = some p := by
          rw [hcache]
          exact firstVal_append_left _ hp
        apply knownPeers_fold_peerGrow
        unfold knownPeerStep
        rw [server_id_to_peer_id_of_some hres]
        exact registerPeer_contains_self
      · obtain ⟨e2, he2⟩ := knownPeerStep_extends (g := g) st e0
        obtain ⟨ext, hcache⟩ := hext
        exact ih (knownPeerStep g st e0)
          ⟨ext ++ e2, by rw [he2, hcache, List.append_assoc]⟩ e he' p hp

theorem fillFold_contains (rangeOf : Nat → Region) :
    ∀ (L : List Nat) (bp : Blueprint) (q : PeerId),
      ((L.foldl (fun b i => fillRegion b (rangeOf i)) bp)).containsPeer q =
        bp.containsPeer q := by
  intro L
  induction L with
  | nil => intro bp q; rfl
  | cons i L' ih =>
      intro bp q
      rw [List.foldl_cons, ih, containsPeer_fillRegion]

theorem fillFold_isSome_mono (rangeOf : Nat → Region) :
    ∀ (L : List Nat) (bp : Blueprint) (q : PeerId) (r : Region),
      (bp.roleOf q r).isSome = true →
      ((L.foldl (fun b i => fillRegion b (rangeOf i)) bp).roleOf q r).isSome = true := by
  intro L
  induction L with
  | nil => intro bp q r h; exact h
  | cons i L' ih =>
      intro bp q r h
      rw [List.foldl_cons]
      apply ih
      cases hv : bp.roleOf q r with
      | some ro => rw [roleOf_fillRegion_of_some hv]; rfl
      | none => rw [hv] at h; exact Bool.noConfusion h

theorem fillFold_coverage (rangeOf : Nat → Region) :
    ∀ (L : List Nat) (bp : Blueprint) (q : PeerId),
      bp.containsPeer q = true → ∀ i ∈ L,
      ((L.foldl (fun b j => fillRegion b (rangeOf j)) bp).roleOf q (rangeOf i)).isSome
        = true := by
  intro L
  induction L with
  | nil => intro bp q _ i hi; exact absurd hi (List.not_mem_nil i)
  | cons i0 L' ih =>
      intro bp q hq i hi
      rw [List.foldl_cons]
      rcases List.mem_cons.mp hi with he | he
      · subst he
        apply fillFold_isSome_mono
        cases hv : bp.roleOf q (rangeOf i) with
        | some ro => rw [roleOf_fillRegion_of_some hv]; rfl
        | none => rw [roleOf_fillRegion_self hq hv]; rfl
      · exact ih (fillRegion bp (rangeOf i0)) q
          (by rw [containsPeer_fillRegion]; exact hq) i he

theorem fillFold_primAnti (rangeOf : Nat → Region) :
    ∀ (L : List Nat) (bp : Blueprint) (p : PeerId) (r : Region),
      ((L.foldl (fun b i => fillRegion b (rangeOf i)) bp).roleOf p r =
        some Role.primary) → bp.roleOf p r = some Role.primary := by
  intro L
  induction L with
  | nil => intro bp p r h; exact h
  | cons i L' ih =>
      intro bp p r h
      rw [List.foldl_cons] at h
      exact roleOf_fillRegion_antitone (by decide) (ih _ p r h)

theorem countP_range_le_one {p : Nat → Bool} {i : Nat} :
    ∀ n : Nat, (∀ j, j < n → p j = true → j = i) →
      (List.range n).countP p ≤ 1 := by
  intro n
  induction n with
  | zero => intro _; rw [List.range_zero]; exact Nat.zero_le 1
  | succ n ih =>
      intro hp
      rw [List.range_succ, List.countP_append]
      by_cases hn : p n = true
      · have hni : n = i := hp n (Nat.lt_succ_self n) hn
        have h0 : (List.range n).countP p = 0 := by
          rw [List.countP_eq_zero]
          intro j hj hpj
          have hjn : j < n := List.mem_range.mp hj
          have hji := hp j (Nat.lt_succ_of_lt hjn) hpj
          omega
        rw [h0]
        have h1 : ([n]).countP p = 1 := by
          rw [List.countP_cons, hn, if_pos rfl, List.countP_nil]
        rw [h1]
      · have hpn : p n = false := bool_eq_false_of_ne_true hn
        have h1 : ([n]).countP p = 0 := by
          rw [List.countP_cons, hpn, if_neg Bool.false_ne_true, List.countP_nil]
        rw [h1]
        have h2 := ih (fun j hj hpj => hp j (Nat.lt_succ_of_lt hj) hpj)
        omega

theorem construct_blueprint_eq (g : Nat → PeerId) (info : TableReplicationInfo)
    (hasName : ServerId → Bool) (snap0 snap1 : List (ServerId × PeerId)) (k0 : Nat) :
    (construct_blueprint g info hasName snap0 snap1 k0).1 =
      fillNothing info.scheme.rangeOf info.shards.length
        ((snap1.foldl (knownPeerStep g)
          (info.shards.enum.foldl (secondaryShardStep g hasName info.scheme.rangeOf)
            (info.shards.enum.foldl (primaryStep g hasName info.scheme.rangeOf)
              ⟨⟨snap0, k0⟩, []⟩))).bp) := rfl

theorem fillNothing_eq (rangeOf : Nat → Region) (n : Nat) (bp : Blueprint) :
    fillNothing rangeOf n bp =
      (List.range n).foldl (fun b i => fillRegion b (rangeOf i)) bp := rfl

/-- C1: for every replication configuration, partitioning scheme, and
topology snapshot satisfying the `ReplicationConfig` invariant (the
`rassert` that the shard-entry count equals the scheme's shard count),
`construct_blueprint` returns a blueprint in which (i) every registered
peer has a role entry for every shard range, (ii) for each shard range at
most one peer holds the primary role, and (iii) every peer appearing in
the topology snapshot's server-to-peer map appears in the blueprint.
`ShardScheme.Valid` states that distinct shard indices have distinct
regions, which is part of being a partitioning scheme (the scheme
partitions the key space into disjoint contiguous ranges). -/
theorem construct_blueprint_invariants
    (g : Nat → PeerId) (info : TableReplicationInfo) (hasName : ServerId → Bool)
    (snap : List (ServerId × PeerId)) (k0 : Nat)
    (hInv : info.ConfigInvariant) (hVal : info.scheme.Valid) :
    (∀ p : PeerId,
        (construct_blueprint g info hasName snap snap k0).1.containsPeer p = true →
        ∀ i, i < info.scheme.num_shards →
          ((construct_blueprint g info hasName snap snap k0).1.roleOf p
              (info.scheme.rangeOf i)).isSome = true) ∧
    (∀ i, i < info.scheme.num_shards →
        (construct_blueprint g info hasName snap snap k0).1.AtMostOnePrimary
          (info.scheme.rangeOf i)) ∧
    (∀ (s : ServerId) (p : PeerId), firstVal snap s = some p →
        (construct_blueprint g info hasName snap snap k0).1.containsPeer p = true) := by
  unfold TableReplicationInfo.ConfigInvariant at hInv
  have hfin := construct_blueprint_eq g info hasName snap snap k0
  refine ⟨?_, ?_, ?_⟩
  · intro p hp i hi
    rw [hfin, fillNothing_eq] at hp ⊢
    rw [fillFold_contains] at hp
    apply fillFold_coverage
    · exact hp
    · exact List.mem_range.mpr (by omega)
  · intro i hi p q hp hq
    rw [hfin, fillNothing_eq] at hp hq
    have hp1 := fillFold_primAnti _ _ _ _ _ hp
    have hq1 := fillFold_primAnti _ _ _ _ _ hq
    have hp2 := knownPeers_fold_primAnti _ _ p _ hp1
    have hq2 := knownPeers_fold_primAnti _ _ q _ hq1
    have hp3 := secondaries_fold_primAnti _ _ p _ hp2
    have hq3 := secondaries_fold_primAnti _ _ q _ hq2
    have hone : (info.shards.enum.foldl (primaryStep g hasName info.scheme.rangeOf)
        ⟨⟨snap, k0⟩, []⟩).bp.AtMostOnePrimary (info.scheme.rangeOf i) := by
      apply primaries_fold_atMostOne
      · have h1 : (List.range info.shards.length).countP
            (fun j => decide (info.scheme.rangeOf j = info.scheme.rangeOf i)) ≤ 1 := by
          apply countP_range_le_one
          intro j hj hpj
          exact hVal j i (by omega) hi (of_decide_eq_true hpj)
        rw [← List.enum_map_fst info.shards, List.countP_map] at h1
        exact h1
      · intro a b ha _
        exact absurd ha (fun hcon => Option.noConfusion hcon)
      · intro _ a ha
        exact Option.noConfusion ha
    exact hone p q hp3 hq3
  · intro s p hp
    rw [hfin, fillNothing_eq, fillFold_contains]
    have hmem : (s, p) ∈ snap := firstVal_mem hp
    obtain ⟨e1, he1⟩ := primaries_fold_extends g hasName info.scheme.rangeOf
      info.shards.enum ⟨⟨snap, k0⟩, []⟩
    obtain ⟨e2, he2⟩ := secondaries_fold_extends g hasName info.scheme.rangeOf
      info.shards.enum
      (info.shards.enum.foldl (primaryStep g hasName info.scheme.rangeOf)
        ⟨⟨snap, k0⟩, []⟩)
    apply knownPeers_fold_registered snap _ ?_ (s, p) hmem p hp
    exact ⟨e1 ++ e2, by rw [he2, he1]; exact List.append_assoc snap e1 e2⟩

/-- Witness for C1: the invariants theorem applied to the concrete
one-shard scenario (director server 1 mapped to live peer 1, replica
server 2 mapped to live peer 2), instantiated at invariant (iii) for the
live peer of server 2. -/
theorem construct_blueprint_invariants_witness :
    (construct_blueprint (fun k => PeerId.synth k)
        ⟨[⟨1, [1, 2]⟩], ⟨1, fun i => i⟩⟩ (fun _ => true)
        [(1, PeerId.live 1), (2, PeerId.live 2)]
        [(1, PeerId.live 1), (2, PeerId.live 2)] 0).1.containsPeer
      (PeerId.live 2) = true :=
  (construct_blueprint_invariants (fun k => PeerId.synth k)
      ⟨[⟨1, [1, 2]⟩], ⟨1, fun i => i⟩⟩ (fun _ => true)
      [(1, PeerId.live 1), (2, PeerId.live 2)] 0
      rfl (fun i j hi hj _ => by
        have hi' : i < 1 := hi
        have hj' : j < 1 := hj
        omega)).2.2 2 (PeerId.live 2) rfl

theorem knownPeers_fold_roleOf {g : Nat → PeerId} :
    ∀ (L : List (ServerId × PeerId)) (st : BuildState) (q : PeerId) (r : Region),
      ((L.foldl (knownPeerStep g) st).bp.roleOf q r) = st.bp.roleOf q r := by
  intro L
  induction L with
  | nil => intro st q r; rfl
  | cons e L' ih =>
      intro st q r
      rw [List.foldl_cons, ih, knownPeerStep_roleOf]

theorem fillFold_roleOf_of_some (rangeOf : Nat → Region) :
    ∀ (L : List Nat) (bp : Blueprint) (q : PeerId) (r : Region) (ro : Role),
      bp.roleOf q r = some ro →
      ((L.foldl (fun b i => fillRegion b (rangeOf i)) bp).roleOf q r) = some ro := by
  intro L
  induction L with
  | nil => intro bp q r ro h; exact h
  | cons i L' ih =>
      intro bp q r ro h
      rw [List.foldl_cons]
      exact ih _ q r ro (roleOf_fillRegion_of_some h)

theorem fillFold_nonNothing_antitone (rangeOf : Nat → Region) :
    ∀ (L : List Nat) (bp : Blueprint) (p : PeerId) (r : Region) (ro : Role),
      ro ≠ Role.nothing →
      ((L.foldl (fun b i => fillRegion b (rangeOf i)) bp).roleOf p r = some ro) →
      bp.roleOf p r = some ro := by
  intro L
  induction L with
  | nil => intro bp p r ro _ h; exact h
  | cons i L' ih =>
      intro bp p r ro hro h
      rw [List.foldl_cons] at h
      exact roleOf_fillRegion_antitone hro (ih _ p r ro hro h)

/-- C4 counterexample: `construct_blueprint` does perform a second read of
the live server-to-peer topology source in its every-known-peer step.  At
a concrete input where the second read returns a server that the
start-of-call snapshot lacked, the result differs from the run in which
every read returns the start-of-call snapshot — refuting the claim that
no later read of the live topology source affects the call. -/
theorem construct_blueprint_second_read_counterexample :
    construct_blueprint (fun k => PeerId.synth k) ⟨[], ⟨0, fun i => i⟩⟩
        (fun _ => true) [] [(5, PeerId.live 7)] 0 ≠
      construct_blueprint (fun k => PeerId.synth k) ⟨[], ⟨0, fun i => i⟩⟩
        (fun _ => true) [] [] 0 := by
  decide

/-- C4 amended: every resolution performed through the translator
(`blueprint_id_translator_t`) consults the snapshot captured when the
translator is constructed at the start of the call, so all primary and
secondary role assignments are independent of the second topology read;
only the set of peers registered with no role (and the synthesized-UUID
counter) can depend on the every-known-peer step's second read. -/
theorem construct_blueprint_roles_independent_of_second_read
    (g : Nat → PeerId) (info : TableReplicationInfo) (hasName : ServerId → Bool)
    (snap0 snap1 snap1' : List (ServerId × PeerId)) (k0 : Nat)
    (p : PeerId) (r : Region) (ro : Role) (hro : ro ≠ Role.nothing) :
    (construct_blueprint g info hasName snap0 snap1 k0).1.roleOf p r = some ro ↔
      (construct_blueprint g info hasName snap0 snap1' k0).1.roleOf p r = some ro := by
  have key : ∀ s1 : List (ServerId × PeerId),
      ((construct_blueprint g info hasName snap0 s1 k0).1.roleOf p r = some ro ↔
        ((info.shards.enum.foldl (secondaryShardStep g hasName info.scheme.rangeOf)
          (info.shards.enum.foldl (primaryStep g hasName info.scheme.rangeOf)
            ⟨⟨snap0, k0⟩, []⟩)).bp.roleOf p r = some ro)) := by
    intro s1
    rw [construct_blueprint_eq, fillNothing_eq]
    constructor
    · intro h
      have h2 := fillFold_nonNothing_antitone _ _ _ _ _ _ hro h
      rw [knownPeers_fold_roleOf] at h2
      exact h2
    · intro h
      apply fillFold_roleOf_of_some
      rw [knownPeers_fold_roleOf]
      exact h
  exact (key snap1).trans (key snap1').symm

/-- Witness for the amended C4 theorem at the concrete one-shard scenario,
with the second read of one run replaced by an empty map. -/
theorem construct_blueprint_roles_independent_witness :
    (construct_blueprint (fun k => PeerId.synth k)
        ⟨[⟨1, [1, 2]⟩], ⟨1, fun i => i⟩⟩ (fun _ => true)
        [(1, PeerId.live 1), (2, PeerId.live 2)]
        [(1, PeerId.live 1), (2, PeerId.live 2)] 0).1.roleOf
        (PeerId.live 1) 0 = some Role.primary ↔
      (construct_blueprint (fun k => PeerId.synth k)
        ⟨[⟨1, [1, 2]⟩], ⟨1, fun i => i⟩⟩ (fun _ => true)
        [(1, PeerId.live 1), (2, PeerId.live 2)] [] 0).1.roleOf
        (PeerId.live 1) 0 = some Role.primary :=
  construct_blueprint_roles_independent_of_second_read
    (fun k => PeerId.synth k) ⟨[⟨1, [1, 2]⟩], ⟨1, fun i => i⟩⟩ (fun _ => true)
    [(1, PeerId.live 1), (2, PeerId.live 2)]
    [(1, PeerId.live 1), (2, PeerId.live 2)] [] 0
    (PeerId.live 1) 0 Role.primary (by decide)

/-- C5: the secondaries-loop body, for a non-removed replica server.  The
replica's resolved peer is registered if new; it is recorded as secondary
for the shard's range when the replica is not the shard's director, and
the role assignment is skipped exactly when it is.  The source guards the
assignment with the server-id comparison `server != shard.director`; the
second conjunct shows that under the facts that hold of the translator
state when the secondaries loop runs — the cached topology snapshot maps
distinct servers to distinct peers, `generate_uuid()` values are distinct
from each other and from every cached peer, and the director's peer
`dpeer` is either the director's cached resolution (live director) or a
fresh uncached UUID (removed director) — that comparison coincides with
comparing the replica's resolved peer against the director's resolved
peer, which is how the claim states the skip condition. -/
theorem replicaStep_secondary_spec
    (g : Nat → PeerId) (hasName : ServerId → Bool) (director : ServerId)
    (r : Region) (st : BuildState) (server : ServerId) (dpeer : PeerId)
    (hs : hasName server = true)
    (hcacheInj : ∀ (s1 s2 : ServerId) (p : PeerId),
      firstVal st.trans.cache s1 = some p → firstVal st.trans.cache s2 = some p →
        s1 = s2)
    (hfresh : ∀ k, st.trans.ctr ≤ k → ∀ s : ServerId,
      firstVal st.trans.cache s ≠ some (g k))
    (hdpeer : (hasName director = true ∧
                firstVal st.trans.cache director = some dpeer) ∨
              (hasName director = false ∧
                (∀ s : ServerId, firstVal st.trans.cache s ≠ some dpeer) ∧
                ∀ k, st.trans.ctr ≤ k → g k ≠ dpeer)) :
    ((replicaStep g hasName director r st server).bp.containsPeer
        (st.trans.server_id_to_peer_id g server).1 = true) ∧
    (server = director ↔ (st.trans.server_id_to_peer_id g server).1 = dpeer) ∧
    (server ≠ director →
      (replicaStep g hasName director r st server).bp.roleOf
        (st.trans.server_id_to_peer_id g server).1 r = some Role.secondary) ∧
    (server = director →
      (replicaStep g hasName director r st server).bp =
        registerPeer st.bp (st.trans.server_id_to_peer_id g server).1) := by
  refine ⟨?_, ?_, ?_, ?_⟩
  · by_cases hd : server ≠ director
    · rw [replicaStep_eq_secondary hs hd]
      show ((registerPeer st.bp _).add_role _ _ _).containsPeer _ = true
      rw [containsPeer_add_role]
      exact registerPeer_contains_self
    · rw [replicaStep_eq_director hs (not_not.mp hd)]
      exact registerPeer_contains_self
  · rcases hdpeer with ⟨hnd, hc⟩ | ⟨hnd, hnc, hgk⟩
    · constructor
      · intro he
        rw [he]
        rw [server_id_to_peer_id_of_some hc]
      · intro hpd
        cases hres : firstVal st.trans.cache server with
        | some pp =>
            rw [server_id_to_peer_id_of_some hres] at hpd
            have hpd' : pp = dpeer := hpd
            rw [hpd'] at hres
            exact hcacheInj server director dpeer hres hc
        | none =>
            rw [server_id_to_peer_id_of_none hres] at hpd
            have hpd' : g st.trans.ctr = dpeer := hpd
            exact absurd hc (hpd' ▸ hfresh st.trans.ctr (Nat.le_refl _) director)
    · constructor
      · intro he
        rw [he] at hs
        rw [hs] at hnd
        exact Bool.noConfusion hnd
      · intro hpd
        cases hres : firstVal st.trans.cache server with
        | some pp =>
            rw [server_id_to_peer_id_of_some hres] at hpd
            have hpd' : pp = dpeer := hpd
            rw [hpd'] at hres
            exact absurd hres (hnc server)
        | none =>
            rw [server_id_to_peer_id_of_none hres] at hpd
            have hpd' : g st.trans.ctr = dpeer := hpd
            exact absurd hpd' (hgk st.trans.ctr (Nat.le_refl _))
  · intro hd
    rw [replicaStep_eq_secondary hs hd]
    show ((registerPeer st.bp _).add_role _ _ _).roleOf _ r = some Role.secondary
    exact roleOf_add_role_self registerPeer_contains_self
  · intro hd
    rw [replicaStep_eq_director hs hd]

/-- Witness for C5: replica server 2 (live name, not in the topology
snapshot, hence resolved to a synthesized peer) of a shard whose director
is server 1 with cached peer `live 1`. -/
theorem replicaStep_secondary_spec_witness :
    (replicaStep (fun k => PeerId.synth k) (fun _ => true) 1 0
        ⟨⟨[(1, PeerId.live 1)], 0⟩, [(PeerId.live 1, [(0, Role.primary)])]⟩
        2).bp.roleOf (PeerId.synth 0) 0 = some Role.secondary :=
  (replicaStep_secondary_spec (fun k => PeerId.synth k) (fun _ => true) 1 0
      ⟨⟨[(1, PeerId.live 1)], 0⟩, [(PeerId.live 1, [(0, Role.primary)])]⟩
      2 (PeerId.live 1) rfl
      (by
        intro s1 s2 p h1 h2
        by_cases e1 : (1 : Nat) = s1
        · by_cases e2 : (1 : Nat) = s2
          · rw [← e1, ← e2]
          · simp [firstVal, e2] at h2
        · simp [firstVal, e1] at h1)
      (by
        intro k _ s h
        by_cases e : (1 : Nat) = s <;> simp [firstVal, e] at h)
      (Or.inl ⟨rfl, rfl⟩)).2.2.1 (by decide)

/-- C2: for every handle teardown — whichever number `m` of initialization
steps had executed when teardown was requested — the background teardown
task realises the specification's four steps in exactly the order
{export-link destroyed, reactor destroyed, directory key removed, storage
released}; the release-storage step comprises the three storage-owning
operations (the `svs_` and `stores_lifetimer_` member destructors and the
registry's `destroy_svs` call), all of which come after the directory-key
removal. -/
theorem teardown_steps_in_order :
    ∀ m : Nat,
      (delete_reactor_data_trace m).filterMap classifyTeardown =
        [TeardownStep.exportLinkDestroyed, TeardownStep.reactorDestroyed,
         TeardownStep.directoryKeyRemoved, TeardownStep.storageReleased,
         TeardownStep.storageReleased, TeardownStep.storageReleased] := by
  intro m
  by_cases h4 : m < 4
  · interval_cases m <;> decide
  · have hd : initialize_reactor_trace.drop m = [] :=
      List.drop_eq_nil_of_le (by simp [initialize_reactor_trace]; omega)
    unfold delete_reactor_data_trace destructor_trace
    rw [hd]
    decide

/-- C3: handle destruction blocks until the asynchronous initialization
has fully completed.  For every number `m` of initialization steps already
executed when teardown is requested, the realised lifecycle trace equals
the *complete* initialization sequence followed by the teardown
operations: every initialization event precedes every one of the four
teardown steps, so none of them runs before `initialize_reactor` has
finished (`m = 0` is the never-started case, which the destructor's wait
runs to completion first). -/
theorem teardown_waits_for_initialization :
    ∀ m : Nat,
      lifecycle_trace m =
        initialize_reactor_trace ++
          [HEvent.destroyExporter, HEvent.destroyReactor,
           HEvent.deleteDirectoryKey, HEvent.destroyMultistore,
           HEvent.destroyStoresLifetimer, HEvent.destroySvs] := by
  intro m
  unfold lifecycle_trace delete_reactor_data_trace destructor_trace
  rw [List.append_assoc (initialize_reactor_trace.drop m)]
  rw [← List.append_assoc (initialize_reactor_trace.take m)]
  rw [List.take_append_drop]
  rfl

theorem firstVal_filter_ne {β : Type} (l : List (Nat × β)) (k0 k : Nat) (hne : k ≠ k0) :
    firstVal (l.filter (fun e => decide (e.1 ≠ k0))) k = firstVal l k := by
  induction l with
  | nil => rfl
  | cons e rest ih =>
      by_cases he : e.1 = k0
      · have hek : ¬ (e.1 = k) := fun h => hne (h ▸ he)
        rw [List.filter_cons, if_neg (by simp [he])]
        rw [ih]
        simp only [firstVal, hek, if_false]
      · rw [List.filter_cons, if_pos (by simp [he])]
        by_cases hek : e.1 = k
        · simp only [firstVal, hek, if_true]
        · simp only [firstVal, hek, if_false]
          exact ih

theorem hasKey_filter_self {β : Type} (l : List (Nat × β)) (k0 : Nat) :
    hasKey (l.filter (fun e => decide (e.1 ≠ k0))) k0 = false := by
  rw [hasKey_eq_false_iff]
  apply firstVal_eq_none_of_all
  intro e he
  exact of_decide_eq_true (List.mem_filter.mp he).2

theorem firstVal_append_singleton_ne {β : Type} (l : List (Nat × β)) (k0 k : Nat) (v : β)
    (hne : k ≠ k0) : firstVal (l ++ [(k0, v)]) k = firstVal l k := by
  cases hv : firstVal l k with
  | some w => exact firstVal_append_left _ hv
  | none =>
      rw [firstVal_append_none _ hv]
      have hne' : ¬ ((k0, v).1 = k) := fun h => hne h.symm
      simp [firstVal, hne']

theorem firstVal_map_update_ne {β : Type} (l : List (Nat × β)) (k0 k : Nat)
    (f : Nat × β → β) (hne : k ≠ k0) :
    firstVal (l.map (fun e => if e.1 = k0 then (e.1, f e) else e)) k =
      firstVal l k := by
  induction l with
  | nil => rfl
  | cons e rest ih =>
      rw [List.map_cons]
      by_cases he : e.1 = k0
      · have hek : ¬ (e.1 = k) := fun h => hne (h ▸ he)
        rw [if_pos he]
        simp only [firstVal, hek, if_false]
        exact ih
      · rw [if_neg he]
        by_cases hek : e.1 = k <;> simp [firstVal, hek, ih]

/-- The collision branch of the `on_change` loop body: construction fails,
the table is skipped, and the accumulator — registry state, the table's
handle included, and the event list — is returned untouched. -/
theorem on_change_step_collision_eq {g : Nat → PeerId}
    {hasName collides : ServerId → Bool} {snap : List (ServerId × PeerId)}
    {me : PeerId} {weRemoved : Bool} {acc : RegState × List REvent}
    {t : TableEntry}
    (hc1 : ((t.deleted || weRemoved) && hasKey acc.1.reactor_data t.ns) = false)
    (hd : t.deleted = false) (hcol : tableCollides collides t.info = true) :
    on_change_step g hasName collides snap me weRemoved acc t = acc := by
  unfold on_change_step
  rw [if_neg (by rw [hc1]; exact Bool.false_ne_true)]
  rw [hd]
  rw [if_pos (by rfl)]
  rw [if_pos hcol]

/-- The deleted-with-live-handle branch of the `on_change` loop body: the
handle is released from the map (synchronously, by the returned state) and
the spawn of its `delete_reactor_data` task is recorded immediately after
the erase. -/
theorem on_change_step_erase_eq {g : Nat → PeerId}
    {hasName collides : ServerId → Bool} {snap : List (ServerId × PeerId)}
    {me : PeerId} {weRemoved : Bool} {acc : RegState × List REvent}
    {t : TableEntry} {h : Handle}
    (hc : (t.deleted || weRemoved) = true)
    (hk : firstVal acc.1.reactor_data t.ns = some h) :
    on_change_step g hasName collides snap me weRemoved acc t =
      ({ acc.1 with
           reactor_data := acc.1.reactor_data.filter (fun e => decide (e.1 ≠ t.ns)) },
       acc.2 ++ [REvent.eraseEntry t.ns, REvent.spawnDelete t.ns h.hid]) := by
  unfold on_change_step
  have hkk : hasKey acc.1.reactor_data t.ns = true := by
    unfold hasKey
    rw [hk]
    rfl
  rw [if_pos (by rw [hc, hkk]; decide)]
  rw [hk]

/-- Case analysis of the `on_change` loop body: it either (1) erases the
table's entry and schedules its teardown, (2) leaves the map and events
untouched up to the UUID counter, (3) appends a fresh handle for the
table, or (4) updates the table's handle cell in place. -/
theorem on_change_step_cases (g : Nat → PeerId)
    (hasName collides : ServerId → Bool) (snap : List (ServerId × PeerId))
    (me : PeerId) (weRemoved : Bool) (acc : RegState × List REvent)
    (t : TableEntry) :
    (∃ h : Handle, firstVal acc.1.reactor_data t.ns = some h ∧
      on_change_step g hasName collides snap me weRemoved acc t =
        ({ acc.1 with
             reactor_data := acc.1.reactor_data.filter (fun e => decide (e.1 ≠ t.ns)) },
         acc.2 ++ [REvent.eraseEntry t.ns, REvent.spawnDelete t.ns h.hid])) ∨
    (∃ u : Nat, on_change_step g hasName collides snap me weRemoved acc t =
        ({ acc.1 with uuidCtr := u }, acc.2)) ∨
    (∃ (u : Nat) (bp : Blueprint),
      on_change_step g hasName collides snap me weRemoved acc t =
        ({ acc.1 with
             reactor_data := acc.1.reactor_data ++ [(t.ns, ⟨acc.1.nextHid, bp⟩)]
             nextHid := acc.1.nextHid + 1
             uuidCtr := u },
         acc.2 ++ [REvent.createHandle t.ns acc.1.nextHid])) ∨
    (∃ (u : Nat) (bp : Blueprint) (b : Bool),
      on_change_step g hasName collides snap me weRemoved acc t =
        ({ acc.1 with
             reactor_data := acc.1.reactor_data.map (fun e =>
               if e.1 = t.ns then
                 (e.1, ⟨e.2.hid, (op_closure_apply bp e.2.cell).newCell⟩)
               else e)
             uuidCtr := u },
         acc.2 ++ [REvent.applyCell t.ns b])) := by
  by_cases hc1 : ((t.deleted || weRemoved) && hasKey acc.1.reactor_data t.ns) = true
  · have hc1x := hc1
    rw [Bool.and_eq_true] at hc1x
    obtain ⟨hc, hkk⟩ := hc1x
    cases hk : firstVal acc.1.reactor_data t.ns with
    | some h => exact Or.inl ⟨h, rfl, on_change_step_erase_eq hc hk⟩
    | none =>
        unfold hasKey at hkk
        rw [hk] at hkk
        exact Bool.noConfusion hkk
  · have hc1' := bool_eq_false_of_ne_true hc1
    by_cases hd : t.deleted = true
    · refine Or.inr (Or.inl ⟨acc.1.uuidCtr, ?_⟩)
      unfold on_change_step
      rw [if_neg (by rw [hc1']; exact Bool.false_ne_true)]
      rw [hd]
      rw [if_neg (by decide)]
    · have hd' := bool_eq_false_of_ne_true hd
      by_cases hcol : tableCollides collides t.info = true
      · exact Or.inr (Or.inl ⟨acc.1.uuidCtr,
          on_change_step_collision_eq hc1' hd' hcol⟩)
      · have hcol' := bool_eq_false_of_ne_true hcol
        by_cases hme : (construct_blueprint g t.info hasName snap snap
            acc.1.uuidCtr).1.containsPeer me = true
        · by_cases hnk : hasKey acc.1.reactor_data t.ns = true
          · cases hk : firstVal acc.1.reactor_data t.ns with
            | some h =>
                refine Or.inr (Or.inr (Or.inr
                  ⟨(construct_blueprint g t.info hasName snap snap acc.1.uuidCtr).2,
                   (construct_blueprint g t.info hasName snap snap acc.1.uuidCtr).1,
                   (op_closure_apply (construct_blueprint g t.info hasName snap snap
                     acc.1.uuidCtr).1 h.cell).notifies, ?_⟩))
                unfold on_change_step
                rw [if_neg (by rw [hc1']; exact Bool.false_ne_true)]
                rw [hd']
                rw [if_pos (by rfl)]
                rw [if_neg (by rw [hcol']; exact Bool.false_ne_true)]
                rw [if_neg (by rw [hme]; exact (by decide : ¬ ((!true) = true)))]
                rw [if_neg (by rw [hnk]; exact (by decide : ¬ ((!true) = true)))]
                rw [hk]
            | none =>
                unfold hasKey at hnk
                rw [hk] at hnk
                exact Bool.noConfusion hnk
          · have hnk' := bool_eq_false_of_ne_true hnk
            refine Or.inr (Or.inr (Or.inl
              ⟨(construct_blueprint g t.info hasName snap snap acc.1.uuidCtr).2,
               (construct_blueprint g t.info hasName snap snap acc.1.uuidCtr).1, ?_⟩))
            unfold on_change_step
            rw [if_neg (by rw [hc1']; exact Bool.false_ne_true)]
            rw [hd']
            rw [if_pos (by rfl)]
            rw [if_neg (by rw [hcol']; exact Bool.false_ne_true)]
            rw [if_neg (by rw [hme]; exact (by decide : ¬ ((!true) = true)))]
            rw [if_pos (by rw [hnk']; rfl)]
        · have hme' := bool_eq_false_of_ne_true hme
          refine Or.inr (Or.inl
            ⟨(construct_blueprint g t.info hasName snap snap acc.1.uuidCtr).2, ?_⟩)
          unfold on_change_step
          rw [if_neg (by rw [hc1']; exact Bool.false_ne_true)]
          rw [hd']
          rw [if_pos (by rfl)]
          rw [if_neg (by rw [hcol']; exact Bool.false_ne_true)]
          rw [if_pos (by rw [hme']; rfl)]

theorem on_change_step_firstVal_ne {g : Nat → PeerId}
    {hasName collides : ServerId → Bool} {snap : List (ServerId × PeerId)}
    {me : PeerId} {weRemoved : Bool}
    (acc : RegState × List REvent) (t : TableEntry) (ns : Nat) (hne : ns ≠ t.ns) :
    firstVal ((on_change_step g hasName collides snap me weRemoved acc t).1.reactor_data)
        ns = firstVal acc.1.reactor_data ns := by
  rcases on_change_step_cases g hasName collides snap me weRemoved acc t with
    ⟨h, hk, heq⟩ | ⟨u, heq⟩ | ⟨u, bp, heq⟩ | ⟨u, bp, b, heq⟩
  · rw [heq]
    exact firstVal_filter_ne _ _ _ hne
  · rw [heq]
  · rw [heq]
    exact firstVal_append_singleton_ne _ _ _ _ hne
  · rw [heq]
    exact firstVal_map_update_ne _ _ _ _ hne

theorem on_change_fold_firstVal_ne {g : Nat → PeerId}
    {hasName collides : ServerId → Bool} {snap : List (ServerId × PeerId)}
    {me : PeerId} {weRemoved : Bool} :
    ∀ (L : List TableEntry) (acc : RegState × List REvent) (ns : Nat),
      (∀ t' ∈ L, t'.ns ≠ ns) →
      firstVal ((L.foldl (on_change_step g hasName collides snap me weRemoved)
          acc).1.reactor_data) ns = firstVal acc.1.reactor_data ns := by
  intro L
  induction L with
  | nil => intro acc ns _; rfl
  | cons t' L' ih =>
      intro acc ns hL
      rw [List.foldl_cons, ih _ ns (fun x hx => hL x (List.mem_cons_of_mem _ hx)),
          on_change_step_firstVal_ne _ _ ns
            (fun h => (hL t' (List.mem_cons_self _ _)) h.symm)]

theorem on_change_step_events_extend (g : Nat → PeerId)
    (hasName collides : ServerId → Bool) (snap : List (ServerId × PeerId))
    (me : PeerId) (weRemoved : Bool)
    (acc : RegState × List REvent) (t : TableEntry) :
    ∃ extra, (on_change_step g hasName collides snap me weRemoved acc t).2 =
      acc.2 ++ extra := by
  rcases on_change_step_cases g hasName collides snap me weRemoved acc t with
    ⟨h, hk, heq⟩ | ⟨u, heq⟩ | ⟨u, bp, heq⟩ | ⟨u, bp, b, heq⟩
  · exact ⟨_, by rw [heq]⟩
  · exact ⟨[], by rw [heq]; exact (List.append_nil _).symm⟩
  · exact ⟨_, by rw [heq]⟩
  · exact ⟨_, by rw [heq]⟩

theorem on_change_fold_events_extend {g : Nat → PeerId}
    {hasName collides : ServerId → Bool} {snap : List (ServerId × PeerId)}
    {me : PeerId} {weRemoved : Bool} :
    ∀ (L : List TableEntry) (acc : RegState × List REvent),
      ∃ extra, (L.foldl (on_change_step g hasName collides snap me weRemoved) acc).2 =
        acc.2 ++ extra := by
  intro L
  induction L with
  | nil => intro acc; exact ⟨[], (List.append_nil _).symm⟩
  | cons t' L' ih =>
      intro acc
      rw [List.foldl_cons]
      obtain ⟨e1, he1⟩ := on_change_step_events_extend g hasName collides snap
        me weRemoved acc t'
      obtain ⟨e2, he2⟩ := ih (on_change_step g hasName collides snap me weRemoved acc t')
      exact ⟨e1 ++ e2, by rw [he2, he1, List.append_assoc]⟩

/-- C7: during an `on_change` pass, a table whose blueprint construction
fails with the server-name-collision error is skipped: the per-table body
returns the accumulator — registry state, that table's live handle with
its prior cell value, and the event list — entirely unchanged, and the
whole pass computes the same result as the pass over the remaining tables
alone, so processing continues with them. -/
theorem on_change_collision_leaves_table_untouched
    (g : Nat → PeerId) (hasName collides : ServerId → Bool)
    (snap : List (ServerId × PeerId)) (me : PeerId)
    (t : TableEntry) (L1 L2 : List TableEntry) (st : RegState)
    (hCol : tableCollides collides t.info = true) (hDel : t.deleted = false) :
    (∀ acc : RegState × List REvent,
        on_change_step g hasName collides snap me false acc t = acc) ∧
    on_change g hasName collides snap me false (L1 ++ t :: L2) st =
      on_change g hasName collides snap me false (L1 ++ L2) st := by
  have hstep : ∀ acc : RegState × List REvent,
      on_change_step g hasName collides snap me false acc t = acc := by
    intro acc
    apply on_change_step_collision_eq _ hDel hCol
    rw [hDel]
    rfl
  refine ⟨hstep, ?_⟩
  unfold on_change
  rw [List.foldl_append, List.foldl_cons, hstep, ← List.foldl_append]

/-- Witness for C7: a one-table pass in which that table's only configured
server has an ambiguous name computes exactly what the empty pass
computes. -/
theorem on_change_collision_witness :
    on_change (fun k => PeerId.synth k) (fun _ => true) (fun s => decide (s = 1))
        [] (PeerId.live 0) false
        [⟨7, false, ⟨[⟨1, [1]⟩], ⟨1, fun i => i⟩⟩⟩] ⟨[], 0, 0⟩ =
      on_change (fun k => PeerId.synth k) (fun _ => true) (fun s => decide (s = 1))
        [] (PeerId.live 0) false [] ⟨[], 0, 0⟩ :=
  (on_change_collision_leaves_table_untouched (fun k => PeerId.synth k)
      (fun _ => true) (fun s => decide (s = 1)) [] (PeerId.live 0)
      ⟨7, false, ⟨[⟨1, [1]⟩], ⟨1, fun i => i⟩⟩⟩ [] [] ⟨[], 0, 0⟩
      (by decide) rfl).2

/-- C8: in an `on_change` pass, every deleted table (or every table, if
the local process was permanently removed) that holds a live handle has
its entry removed from `reactor_data` synchronously — the erase is
recorded in the event order immediately before the spawn of the
background `delete_reactor_data` task — and the entry is absent from the
state the pass returns, so no later pass can observe the detached
handle. -/
theorem on_change_deleted_detached_synchronously
    (g : Nat → PeerId) (hasName collides : ServerId → Bool)
    (snap : List (ServerId × PeerId)) (me : PeerId) (weRemoved : Bool)
    (tables : List TableEntry) (st : RegState) (t : TableEntry)
    (hNodup : (tables.map TableEntry.ns).Nodup)
    (ht : t ∈ tables)
    (hdel : (t.deleted || weRemoved) = true)
    (hlive : hasKey st.reactor_data t.ns = true) :
    hasKey (on_change g hasName collides snap me weRemoved tables
        st).1.reactor_data t.ns = false ∧
    ∃ (i : Nat) (hid : Nat),
      (on_change g hasName collides snap me weRemoved tables st).2[i]? =
          some (REvent.eraseEntry t.ns) ∧
      (on_change g hasName collides snap me weRemoved tables st).2[i + 1]? =
          some (REvent.spawnDelete t.ns hid) := by
  obtain ⟨T1, T2, rfl⟩ := List.append_of_mem ht
  have hmap := hNodup
  rw [List.map_append, List.map_cons] at hmap
  obtain ⟨hn1, hn2, hdis⟩ := List.nodup_append.mp hmap
  have hT1 : ∀ x ∈ T1, TableEntry.ns x ≠ t.ns := by
    intro x hx heq
    exact hdis (List.mem_map_of_mem _ hx)
      (by rw [heq]; exact List.mem_cons_self _ _)
  have hT2 : ∀ x ∈ T2, TableEntry.ns x ≠ t.ns := by
    intro x hx heq
    exact (List.nodup_cons.mp hn2).1
      (by rw [← heq]; exact List.mem_map_of_mem _ hx)
  unfold on_change
  rw [List.foldl_append, List.foldl_cons]
  have hkey1 : firstVal (T1.foldl (on_change_step g hasName collides snap me
      weRemoved) (st, [])).1.reactor_data t.ns = firstVal st.reactor_data t.ns :=
    on_change_fold_firstVal_ne T1 (st, []) t.ns hT1
  obtain ⟨h, hk⟩ : ∃ h, firstVal (T1.foldl (on_change_step g hasName collides snap
      me weRemoved) (st, [])).1.reactor_data t.ns = some h := by
    rw [hkey1]
    unfold hasKey at hlive
    cases hv : firstVal st.reactor_data t.ns with
    | some h0 => exact ⟨h0, rfl⟩
    | none =>
        rw [hv] at hlive
        exact Bool.noConfusion hlive
  rw [on_change_step_erase_eq hdel hk]
  constructor
  · unfold hasKey
    rw [on_change_fold_firstVal_ne T2 _ t.ns hT2]
    have hfil := hasKey_filter_self (T1.foldl (on_change_step g hasName collides
      snap me weRemoved) (st, [])).1.reactor_data t.ns
    unfold hasKey at hfil
    exact hfil
  · obtain ⟨extra, hev⟩ := on_change_fold_events_extend T2
      ({ (T1.foldl (on_change_step g hasName collides snap me weRemoved)
            (st, [])).1 with
           reactor_data := (T1.foldl (on_change_step g hasName collides snap me
             weRemoved) (st, [])).1.reactor_data.filter
               (fun e => decide (e.1 ≠ t.ns)) },
       (T1.foldl (on_change_step g hasName collides snap me weRemoved)
          (st, [])).2 ++
         [REvent.eraseEntry t.ns, REvent.spawnDelete t.ns h.hid])
    refine ⟨(T1.foldl (on_change_step g hasName collides snap me weRemoved)
        (st, [])).2.length, h.hid, ?_, ?_⟩
    · rw [hev, List.append_assoc, List.getElem?_append_right (Nat.le_refl _),
        Nat.sub_self]
      rfl
    · rw [hev, List.append_assoc, List.getElem?_append_right (by omega)]
      have hidx : (T1.foldl (on_change_step g hasName collides snap me weRemoved)
          (st, [])).2.length + 1 -
          (T1.foldl (on_change_step g hasName collides snap me weRemoved)
            (st, [])).2.length = 1 := by omega
      rw [hidx]
      have hsplit : ([REvent.eraseEntry t.ns, REvent.spawnDelete t.ns h.hid] ++
          extra) = REvent.eraseEntry t.ns :: REvent.spawnDelete t.ns h.hid ::
            extra := rfl
      rw [hsplit]
      simp

/-- Witness for C8: a pass over a single deleted table whose handle is
live in the registry. -/
theorem on_change_deleted_witness :
    hasKey (on_change (fun k => PeerId.synth k) (fun _ => true) (fun _ => false)
        [] (PeerId.live 0) false [⟨7, true, ⟨[], ⟨0, fun i => i⟩⟩⟩]
        ⟨[(7, ⟨0, []⟩)], 1, 0⟩).1.reactor_data 7 = false ∧
    ∃ (i : Nat) (hid : Nat),
      (on_change (fun k => PeerId.synth k) (fun _ => true) (fun _ => false)
          [] (PeerId.live 0) false [⟨7, true, ⟨[], ⟨0, fun i => i⟩⟩⟩]
          ⟨[(7, ⟨0, []⟩)], 1, 0⟩).2[i]? = some (REvent.eraseEntry 7) ∧
      (on_change (fun k => PeerId.synth k) (fun _ => true) (fun _ => false)
          [] (PeerId.live 0) false [⟨7, true, ⟨[], ⟨0, fun i => i⟩⟩⟩]
          ⟨[(7, ⟨0, []⟩)], 1, 0⟩).2[i + 1]? = some (REvent.spawnDelete 7 hid) :=
  on_change_deleted_detached_synchronously (fun k => PeerId.synth k)
    (fun _ => true) (fun _ => false) [] (PeerId.live 0) false
    [⟨7, true, ⟨[], ⟨0, fun i => i⟩⟩⟩] ⟨[(7, ⟨0, []⟩)], 1, 0⟩
    ⟨7, true, ⟨[], ⟨0, fun i => i⟩⟩⟩
    (by decide) (List.mem_cons_self _ _) (by decide) (by decide)

theorem peerSim_mono {g1 g2 : Nat → PeerId} {k1 k2 d d' : Nat} (hdd : d ≤ d')
    {p1 p2 : PeerId} (h : PeerSim g1 g2 k1 k2 d p1 p2) :
    PeerSim g1 g2 k1 k2 d' p1 p2 := by
  rcases h with h | ⟨j, hj, h1, h2⟩
  · exact Or.inl h
  · exact Or.inr ⟨j, Nat.lt_of_lt_of_le hj hdd, h1, h2⟩

theorem entrySim_forall₂_mono {g1 g2 : Nat → PeerId} {k1 k2 d d' : Nat}
    (hdd : d ≤ d') {l1 l2 : List (ServerId × PeerId)}
    (h : List.Forall₂ (EntrySim g1 g2 k1 k2 d) l1 l2) :
    List.Forall₂ (EntrySim g1 g2 k1 k2 d') l1 l2 :=
  List.Forall₂.imp (fun _ _ he => ⟨he.1, peerSim_mono hdd he.2⟩) h

theorem bpEntrySim_forall₂_mono {g1 g2 : Nat → PeerId} {k1 k2 d d' : Nat}
    (hdd : d ≤ d') {l1 l2 : Blueprint}
    (h : List.Forall₂ (BpEntrySim g1 g2 k1 k2 d) l1 l2) :
    List.Forall₂ (BpEntrySim g1 g2 k1 k2 d') l1 l2 :=
  List.Forall₂.imp (fun _ _ he => ⟨peerSim_mono hdd he.1, he.2⟩) h

theorem ne_of_isSynth_ne {x y : PeerId} (hx : x.isSynth = false)
    (hy : y.isSynth = true) : x ≠ y := by
  intro h
  rw [h, hy] at hx
  exact Bool.noConfusion hx

theorem peerSim_eq_iff {g1 g2 : Nat → PeerId} {k1 k2 d : Nat}
    (hg1 : ∀ k, (g1 k).isSynth = true) (hg2 : ∀ k, (g2 k).isSynth = true)
    (hinj1 : Function.Injective g1) (hinj2 : Function.Injective g2)
    {p1 p2 q1 q2 : PeerId}
    (hp : PeerSim g1 g2 k1 k2 d p1 p2) (hq : PeerSim g1 g2 k1 k2 d q1 q2) :
    (p1 = q1) ↔ (p2 = q2) := by
  rcases hp with ⟨hpe, hpl⟩ | ⟨i, hi, hp1, hp2⟩
  · rcases hq with ⟨hqe, hql⟩ | ⟨j, hj, hq1, hq2⟩
    · rw [← hpe, ← hqe]
    · constructor
      · intro h
        exact absurd h (by rw [hq1]; exact ne_of_isSynth_ne hpl (hg1 _))
      · intro h
        rw [← hpe] at h
        exact absurd h (by rw [hq2]; exact ne_of_isSynth_ne hpl (hg2 _))
  · rcases hq with ⟨hqe, hql⟩ | ⟨j, hj, hq1, hq2⟩
    · constructor
      · intro h
        exact absurd h.symm (by rw [hp1]; exact ne_of_isSynth_ne hql (hg1 _))
      · intro h
        rw [← hqe] at h
        exact absurd h.symm (by rw [hp2]; exact ne_of_isSynth_ne hql (hg2 _))
    · rw [hp1, hq1, hp2, hq2]
      constructor
      · intro h
        have hij : k1 + i = k1 + j := hinj1 h
        have : i = j := by omega
        rw [this]
      · intro h
        have hij : k2 + i = k2 + j := hinj2 h
        have : i = j := by omega
        rw [this]

theorem firstVal_entrySim {g1 g2 : Nat → PeerId} {k1 k2 d : Nat}
    {l1 l2 : List (ServerId × PeerId)}
    (h : List.Forall₂ (EntrySim g1 g2 k1 k2 d) l1 l2) (s : ServerId) :
    (firstVal l1 s = none ∧ firstVal l2 s = none) ∨
      (∃ v1 v2, firstVal l1 s = some v1 ∧ firstVal l2 s = some v2 ∧
        PeerSim g1 g2 k1 k2 d v1 v2) := by
  induction h with
  | nil => exact Or.inl ⟨rfl, rfl⟩
  | @cons e1 e2 t1 t2 he ht ih =>
      obtain ⟨hk, hv⟩ := he
      by_cases hs : e1.1 = s
      · refine Or.inr ⟨e1.2, e2.2, ?_, ?_, hv⟩
        · simp [firstVal, hs]
        · simp [firstVal, hk ▸ hs]
      · have hs2 : ¬ (e2.1 = s) := fun h2 => hs (by rw [hk]; exact h2)
        rcases ih with ⟨hn1, hn2⟩ | ⟨v1, v2, hv1, hv2, hvs⟩
        · exact Or.inl ⟨by simp [firstVal, hs, hn1], by simp [firstVal, hs2, hn2]⟩
        · exact Or.inr ⟨v1, v2, by simp [firstVal, hs, hv1],
            by simp [firstVal, hs2, hv2], hvs⟩

theorem firstVal_bpSim {g1 g2 : Nat → PeerId} {k1 k2 d : Nat}
    (hg1 : ∀ k, (g1 k).isSynth = true) (hg2 : ∀ k, (g2 k).isSynth = true)
    {p : PeerId} (hp : p.isSynth = false) :
    ∀ {l1 l2 : Blueprint}, List.Forall₂ (BpEntrySim g1 g2 k1 k2 d) l1 l2 →
      firstVal l1 p = firstVal l2 p := by
  intro l1 l2 h
  induction h with
  | nil => rfl
  | @cons f1 f2 t1 t2 hf ht ih =>
      obtain ⟨hkey, hroles⟩ := hf
      rcases hkey with ⟨hke, _⟩ | ⟨j, _, h1, h2⟩
      · by_cases hf1 : f1.1 = p
        · simp [firstVal, hf1, hke ▸ hf1, hroles]
        · have hf2 : ¬ (f2.1 = p) := fun h2 => hf1 (by rw [hke]; exact h2)
          simp [firstVal, hf1, hf2, ih]
      · have hf1 : ¬ (f1.1 = p) :=
          fun h0 => (ne_of_isSynth_ne hp (by rw [h1]; exact hg1 _)) h0.symm
        have hf2 : ¬ (f2.1 = p) :=
          fun h0 => (ne_of_isSynth_ne hp (by rw [h2]; exact hg2 _)) h0.symm
        simp [firstVal, hf1, hf2, ih]

theorem containsPeer_bpSim {g1 g2 : Nat → PeerId} {k1 k2 d : Nat}
    (hg1 : ∀ k, (g1 k).isSynth = true) (hg2 : ∀ k, (g2 k).isSynth = true)
    (hinj1 : Function.Injective g1) (hinj2 : Function.Injective g2)
    {l1 l2 : Blueprint} (hsim : List.Forall₂ (BpEntrySim g1 g2 k1 k2 d) l1 l2)
    {p1 p2 : PeerId} (hpq : PeerSim g1 g2 k1 k2 d p1 p2) :
    l1.containsPeer p1 = l2.containsPeer p2 := by
  induction hsim with
  | nil => rfl
  | @cons f1 f2 t1 t2 hf ht ih =>
      have hiff := peerSim_eq_iff hg1 hg2 hinj1 hinj2 hf.1 hpq
      by_cases hf1 : f1.1 = p1
      · have hf2 : f2.1 = p2 := hiff.mp hf1
        unfold Blueprint.containsPeer hasKey
        simp [firstVal, hf1, hf2]
      · have hf2 : ¬ (f2.1 = p2) := fun h2 => hf1 (hiff.mpr h2)
        unfold Blueprint.containsPeer hasKey at ih ⊢
        simp only [firstVal, hf1, hf2, if_false]
        exact ih

theorem add_peer_sim {g1 g2 : Nat → PeerId} {k1 k2 d : Nat}
    {l1 l2 : Blueprint} (hsim : List.Forall₂ (BpEntrySim g1 g2 k1 k2 d) l1 l2)
    {p1 p2 : PeerId} (hpq : PeerSim g1 g2 k1 k2 d p1 p2) :
    List.Forall₂ (BpEntrySim g1 g2 k1 k2 d) (l1.add_peer p1) (l2.add_peer p2) :=
  List.rel_append hsim (List.Forall₂.cons ⟨hpq, rfl⟩ List.Forall₂.nil)

theorem registerPeer_sim {g1 g2 : Nat → PeerId} {k1 k2 d : Nat}
    (hg1 : ∀ k, (g1 k).isSynth = true) (hg2 : ∀ k, (g2 k).isSynth = true)
    (hinj1 : Function.Injective g1) (hinj2 : Function.Injective g2)
    {l1 l2 : Blueprint} (hsim : List.Forall₂ (BpEntrySim g1 g2 k1 k2 d) l1 l2)
    {p1 p2 : PeerId} (hpq : PeerSim g1 g2 k1 k2 d p1 p2) :
    List.Forall₂ (BpEntrySim g1 g2 k1 k2 d)
      (registerPeer l1 p1) (registerPeer l2 p2) := by
  unfold registerPeer
  rw [containsPeer_bpSim hg1 hg2 hinj1 hinj2 hsim hpq]
  by_cases hc : l2.containsPeer p2 = true
  · rw [if_neg (by simp [hc]), if_neg (by simp [hc])]
    exact hsim
  · rw [if_pos (by simp [hc]), if_pos (by simp [hc])]
    exact add_peer_sim hsim hpq

theorem add_role_sim {g1 g2 : Nat → PeerId} {k1 k2 d : Nat}
    (hg1 : ∀ k, (g1 k).isSynth = true) (hg2 : ∀ k, (g2 k).isSynth = true)
    (hinj1 : Function.Injective g1) (hinj2 : Function.Injective g2)
    {l1 l2 : Blueprint} (hsim : List.Forall₂ (BpEntrySim g1 g2 k1 k2 d) l1 l2)
    {p1 p2 : PeerId} (hpq : PeerSim g1 g2 k1 k2 d p1 p2) (r : Region) (ro : Role) :
    List.Forall₂ (BpEntrySim g1 g2 k1 k2 d)
      (l1.add_role p1 r ro) (l2.add_role p2 r ro) := by
  unfold Blueprint.add_role
  induction hsim with
  | nil => exact List.Forall₂.nil
  | @cons f1 f2 t1 t2 hf ht ih =>
      rw [List.map_cons, List.map_cons]
      have hiff := peerSim_eq_iff hg1 hg2 hinj1 hinj2 hf.1 hpq
      by_cases hf1 : f1.1 = p1
      · have hf2 : f2.1 = p2 := hiff.mp hf1
        rw [if_pos hf1, if_pos hf2]
        exact List.Forall₂.cons ⟨hpq, by rw [hf.2]⟩ ih
      · have hf2 : ¬ (f2.1 = p2) := fun h2 => hf1 (hiff.mpr h2)
        rw [if_neg hf1, if_neg hf2]
        exact List.Forall₂.cons hf ih

theorem foldl_rel₂ {α σ : Type} (R : σ → σ → Prop) (f1 f2 : σ → α → σ)
    (hstep : ∀ (a b : σ) (x : α), R a b → R (f1 a x) (f2 b x)) :
    ∀ (L : List α) (a b : σ), R a b → R (L.foldl f1 a) (L.foldl f2 b) := by
  intro L
  induction L with
  | nil => intro a b h; exact h
  | cons x L' ih => intro a b h; exact ih _ _ (hstep a b x h)

theorem server_id_to_peer_id_sim {g1 g2 : Nat → PeerId} {k1 k2 d : Nat}
    {ta tb : TransState} (hc1 : ta.ctr = k1 + d) (hc2 : tb.ctr = k2 + d)
    (hcache : List.Forall₂ (EntrySim g1 g2 k1 k2 d) ta.cache tb.cache)
    (s : ServerId) :
    ∃ d', d ≤ d' ∧
      (ta.server_id_to_peer_id g1 s).2.ctr = k1 + d' ∧
      (tb.server_id_to_peer_id g2 s).2.ctr = k2 + d' ∧
      List.Forall₂ (EntrySim g1 g2 k1 k2 d')
        (ta.server_id_to_peer_id g1 s).2.cache
        (tb.server_id_to_peer_id g2 s).2.cache ∧
      PeerSim g1 g2 k1 k2 d'
        (ta.server_id_to_peer_id g1 s).1 (tb.server_id_to_peer_id g2 s).1 := by
  rcases firstVal_entrySim hcache s with ⟨hn1, hn2⟩ | ⟨v1, v2, hv1, hv2, hvs⟩
  · refine ⟨d + 1, Nat.le_succ d, ?_⟩
    rw [server_id_to_peer_id_of_none hn1, server_id_to_peer_id_of_none hn2]
    refine ⟨by show ta.ctr + 1 = k1 + (d + 1); omega,
      by show tb.ctr + 1 = k2 + (d + 1); omega, ?_, ?_⟩
    · exact List.rel_append (entrySim_forall₂_mono (Nat.le_succ d) hcache)
        (List.Forall₂.cons
          ⟨rfl, Or.inr ⟨d, Nat.lt_succ_self d, by rw [hc1], by rw [hc2]⟩⟩
          List.Forall₂.nil)
    · exact Or.inr ⟨d, Nat.lt_succ_self d, by rw [hc1], by rw [hc2]⟩
  · refine ⟨d, Nat.le_refl d, ?_⟩
    rw [server_id_to_peer_id_of_some hv1, server_id_to_peer_id_of_some hv2]
    exact ⟨hc1, hc2, hcache, hvs⟩

theorem primaryStep_sim {g1 g2 : Nat → PeerId} {k1 k2 : Nat}
    (hg1 : ∀ k, (g1 k).isSynth = true) (hg2 : ∀ k, (g2 k).isSynth = true)
    (hinj1 : Function.Injective g1) (hinj2 : Function.Injective g2)
    (hasName : ServerId → Bool) (rangeOf : Nat → Region)
    {a b : BuildState} (hsim : SimStates g1 g2 k1 k2 a b) (is : Nat × Shard) :
    SimStates g1 g2 k1 k2 (primaryStep g1 hasName rangeOf a is)
      (primaryStep g2 hasName rangeOf b is) := by
  obtain ⟨d, hc1, hc2, hcache, hbp⟩ := hsim
  by_cases hn : hasName is.2.director = true
  · rw [primaryStep_eq_live hn, primaryStep_eq_live hn]
    obtain ⟨d', hdd, hc1', hc2', hcache', hps⟩ :=
      server_id_to_peer_id_sim hc1 hc2 hcache is.2.director
    exact ⟨d', hc1', hc2', hcache',
      add_role_sim hg1 hg2 hinj1 hinj2
        (registerPeer_sim hg1 hg2 hinj1 hinj2 (bpEntrySim_forall₂_mono hdd hbp) hps)
        hps _ _⟩
  · have hn' := bool_eq_false_of_ne_true hn
    rw [primaryStep_eq_removed hn', primaryStep_eq_removed hn']
    have hps : PeerSim g1 g2 k1 k2 (d + 1) (g1 a.trans.ctr) (g2 b.trans.ctr) :=
      Or.inr ⟨d, Nat.lt_succ_self d, by rw [hc1], by rw [hc2]⟩
    exact ⟨d + 1, by show a.trans.ctr + 1 = k1 + (d + 1); omega,
      by show b.trans.ctr + 1 = k2 + (d + 1); omega,
      entrySim_forall₂_mono (Nat.le_succ d) hcache,
      add_role_sim hg1 hg2 hinj1 hinj2
        (registerPeer_sim hg1 hg2 hinj1 hinj2
          (bpEntrySim_forall₂_mono (Nat.le_succ d) hbp) hps)
        hps _ _⟩

theorem replicaStep_sim {g1 g2 : Nat → PeerId} {k1 k2 : Nat}
    (hg1 : ∀ k, (g1 k).isSynth = true) (hg2 : ∀ k, (g2 k).isSynth = true)
    (hinj1 : Function.Injective g1) (hinj2 : Function.Injective g2)
    (hasName : ServerId → Bool) (director : ServerId) (r : Region)
    {a b : BuildState} (hsim : SimStates g1 g2 k1 k2 a b) (server : ServerId) :
    SimStates g1 g2 k1 k2 (replicaStep g1 hasName director r a server)
      (replicaStep g2 hasName director r b server) := by
  obtain ⟨d, hc1, hc2, hcache, hbp⟩ := hsim
  by_cases hs : hasName server = true
  · obtain ⟨d', hdd, hc1', hc2', hcache', hps⟩ :=
      server_id_to_peer_id_sim hc1 hc2 hcache server
    by_cases hd : server ≠ director
    · rw [replicaStep_eq_secondary hs hd, replicaStep_eq_secondary hs hd]
      exact ⟨d', hc1', hc2', hcache',
        add_role_sim hg1 hg2 hinj1 hinj2
          (registerPeer_sim hg1 hg2 hinj1 hinj2
            (bpEntrySim_forall₂_mono hdd hbp) hps) hps _ _⟩
    · rw [replicaStep_eq_director hs (not_not.mp hd),
          replicaStep_eq_director hs (not_not.mp hd)]
      exact ⟨d', hc1', hc2', hcache',
        registerPeer_sim hg1 hg2 hinj1 hinj2
          (bpEntrySim_forall₂_mono hdd hbp) hps⟩
  · rw [replicaStep_eq_skip (bool_eq_false_of_ne_true hs),
        replicaStep_eq_skip (bool_eq_false_of_ne_true hs)]
    exact ⟨d, hc1, hc2, hcache, hbp⟩

theorem secondaryShardStep_sim {g1 g2 : Nat → PeerId} {k1 k2 : Nat}
    (hg1 : ∀ k, (g1 k).isSynth = true) (hg2 : ∀ k, (g2 k).isSynth = true)
    (hinj1 : Function.Injective g1) (hinj2 : Function.Injective g2)
    (hasName : ServerId → Bool) (rangeOf : Nat → Region)
    {a b : BuildState} (hsim : SimStates g1 g2 k1 k2 a b) (is : Nat × Shard) :
    SimStates g1 g2 k1 k2 (secondaryShardStep g1 hasName rangeOf a is)
      (secondaryShardStep g2 hasName rangeOf b is) := by
  unfold secondaryShardStep
  exact foldl_rel₂ (SimStates g1 g2 k1 k2)
    (replicaStep g1 hasName is.2.director (rangeOf is.1))
    (replicaStep g2 hasName is.2.director (rangeOf is.1))
    (fun a b x h => replicaStep_sim hg1 hg2 hinj1 hinj2 hasName is.2.director
      (rangeOf is.1) h x)
    is.2.replicas a b hsim

theorem knownPeerStep_sim {g1 g2 : Nat → PeerId} {k1 k2 : Nat}
    (hg1 : ∀ k, (g1 k).isSynth = true) (hg2 : ∀ k, (g2 k).isSynth = true)
    (hinj1 : Function.Injective g1) (hinj2 : Function.Injective g2)
    {a b : BuildState} (hsim : SimStates g1 g2 k1 k2 a b)
    (e : ServerId × PeerId) :
    SimStates g1 g2 k1 k2 (knownPeerStep g1 a e) (knownPeerStep g2 b e) := by
  obtain ⟨d, hc1, hc2, hcache, hbp⟩ := hsim
  obtain ⟨d', hdd, hc1', hc2', hcache', hps⟩ :=
    server_id_to_peer_id_sim hc1 hc2 hcache e.1
  exact ⟨d', hc1', hc2', hcache',
    registerPeer_sim hg1 hg2 hinj1 hinj2 (bpEntrySim_forall₂_mono hdd hbp) hps⟩

theorem fillRegion_sim {g1 g2 : Nat → PeerId} {k1 k2 d : Nat}
    {l1 l2 : Blueprint} (hsim : List.Forall₂ (BpEntrySim g1 g2 k1 k2 d) l1 l2)
    (r : Region) :
    List.Forall₂ (BpEntrySim g1 g2 k1 k2 d) (fillRegion l1 r) (fillRegion l2 r) := by
  unfold fillRegion
  induction hsim with
  | nil => exact List.Forall₂.nil
  | @cons f1 f2 t1 t2 hf ht ih =>
      rw [List.map_cons, List.map_cons]
      by_cases hk : hasKey f1.2 r = true
      · have hk2 : hasKey f2.2 r = true := by rw [← hf.2]; exact hk
        rw [if_pos hk, if_pos hk2]
        exact List.Forall₂.cons hf ih
      · have hk2 : ¬ (hasKey f2.2 r = true) := by rw [← hf.2]; exact hk
        rw [if_neg hk, if_neg hk2]
        exact List.Forall₂.cons ⟨hf.1, by rw [hf.2]⟩ ih

theorem snap_entrySim {g1 g2 : Nat → PeerId} {k1 k2 : Nat} :
    ∀ snap : List (ServerId × PeerId), (∀ e ∈ snap, e.2.isSynth = false) →
      List.Forall₂ (EntrySim g1 g2 k1 k2 0) snap snap := by
  intro snap
  induction snap with
  | nil => intro _; exact List.Forall₂.nil
  | cons e rest ih =>
      intro h
      exact List.Forall₂.cons ⟨rfl, Or.inl ⟨rfl, h e (List.mem_cons_self _ _)⟩⟩
        (ih (fun x hx => h x (List.mem_cons_of_mem _ hx)))

/-- C9: two runs of `construct_blueprint` over the same replication
configuration, name mapping, and reachable topology snapshot — differing
only in the fresh UUIDs that `generate_uuid()` hands out (modelled as two
arbitrary injective streams of synthesized peer ids, starting at arbitrary
counters) — produce blueprints whose role maps agree on every live
(non-synthesized) peer id; only the synthesized placeholder peers can
differ between the two results. -/
theorem construct_blueprint_idempotent_on_live_peers
    (g1 g2 : Nat → PeerId) (info : TableReplicationInfo)
    (hasName : ServerId → Bool) (snap : List (ServerId × PeerId)) (k1 k2 : Nat)
    (hg1 : ∀ k, (g1 k).isSynth = true) (hg2 : ∀ k, (g2 k).isSynth = true)
    (hinj1 : Function.Injective g1) (hinj2 : Function.Injective g2)
    (hsnap : ∀ e ∈ snap, e.2.isSynth = false)
    (p : PeerId) (hp : p.isSynth = false) :
    (construct_blueprint g1 info hasName snap snap k1).1.rolesOf p =
      (construct_blueprint g2 info hasName snap snap k2).1.rolesOf p := by
  have hinit : SimStates g1 g2 k1 k2 ⟨⟨snap, k1⟩, []⟩ ⟨⟨snap, k2⟩, []⟩ :=
    ⟨0, (Nat.add_zero k1).symm, (Nat.add_zero k2).symm,
      snap_entrySim snap hsnap, List.Forall₂.nil⟩
  have h1 := foldl_rel₂ (SimStates g1 g2 k1 k2)
    (primaryStep g1 hasName info.scheme.rangeOf)
    (primaryStep g2 hasName info.scheme.rangeOf)
    (fun a b x h => primaryStep_sim hg1 hg2 hinj1 hinj2 hasName
      info.scheme.rangeOf h x)
    info.shards.enum _ _ hinit
  have h2 := foldl_rel₂ (SimStates g1 g2 k1 k2)
    (secondaryShardStep g1 hasName info.scheme.rangeOf)
    (secondaryShardStep g2 hasName info.scheme.rangeOf)
    (fun a b x h => secondaryShardStep_sim hg1 hg2 hinj1 hinj2 hasName
      info.scheme.rangeOf h x)
    info.shards.enum _ _ h1
  have h3 := foldl_rel₂ (SimStates g1 g2 k1 k2)
    (knownPeerStep g1) (knownPeerStep g2)
    (fun a b x h => knownPeerStep_sim hg1 hg2 hinj1 hinj2 h x)
    snap _ _ h2
  obtain ⟨d, _, _, _, hbp⟩ := h3
  have hfill := foldl_rel₂ (List.Forall₂ (BpEntrySim g1 g2 k1 k2 d))
    (fun b i => fillRegion b (info.scheme.rangeOf i))
    (fun b i => fillRegion b (info.scheme.rangeOf i))
    (fun a b x h => fillRegion_sim h (info.scheme.rangeOf x))
    (List.range info.shards.length) _ _ hbp
  unfold Blueprint.rolesOf
  rw [construct_blueprint_eq, construct_blueprint_eq, fillNothing_eq,
      fillNothing_eq]
  exact firstVal_bpSim hg1 hg2 hp hfill

/-- Witness for C9: the one-shard scenario with a disconnected replica
(server 2 has a name but no live peer), run twice with different UUID
streams and counters; the live peer of server 1 gets the same role map in
both runs. -/
theorem construct_blueprint_idempotent_witness :
    (construct_blueprint (fun k => PeerId.synth k)
        ⟨[⟨1, [1, 2]⟩], ⟨1, fun i => i⟩⟩ (fun _ => true)
        [(1, PeerId.live 1)] [(1, PeerId.live 1)] 0).1.rolesOf (PeerId.live 1) =
      (construct_blueprint (fun k => PeerId.synth (100 + k))
        ⟨[⟨1, [1, 2]⟩], ⟨1, fun i => i⟩⟩ (fun _ => true)
        [(1, PeerId.live 1)] [(1, PeerId.live 1)] 5).1.rolesOf (PeerId.live 1) :=
  construct_blueprint_idempotent_on_live_peers
    (fun k => PeerId.synth k) (fun k => PeerId.synth (100 + k))
    ⟨[⟨1, [1, 2]⟩], ⟨1, fun i => i⟩⟩ (fun _ => true) [(1, PeerId.live 1)] 0 5
    (fun _ => rfl) (fun _ => rfl)
    (fun a b h => by simpa using h)
    (fun a b h => by simp at h; omega)
    (by decide) (PeerId.live 1) rfl

/-- C10: `is_acceptable_ack_set` accepts exactly the non-empty ack sets —
true for every non-empty list of peer ids, false for the empty list — and
`get_write_durability` returns hard durability for every peer.  Neither
function consults a blueprint, a role, or a replica count. -/
theorem ack_set_nonempty_and_hard_durability :
    (∀ acks : List PeerId, is_acceptable_ack_set acks = true ↔ acks ≠ []) ∧
    (∀ peer : PeerId, get_write_durability peer = WriteDurability.hard) := by
  constructor
  · intro acks
    cases acks <;> simp [is_acceptable_ack_set]
  · intro peer
    rfl

/-- C6: pushing a plan into the observable blueprint cell leaves the cell
unchanged and fires no notification when the new plan equals the held one,
and otherwise replaces the cell's value with the new plan and fires a
notification. -/
theorem op_closure_apply_spec :
    ∀ bp bp_ref : Blueprint,
      (op_closure_apply bp bp_ref).newCell = (if bp_ref = bp then bp_ref else bp) ∧
      ((op_closure_apply bp bp_ref).notifies = true ↔ bp_ref ≠ bp) := by
  intro bp bp_ref
  by_cases h : bp_ref = bp
  · subst h
    simp [op_closure_apply]
  · simp [op_closure_apply, h]

end ReactorDriver
